import Mathlib

/-! # myqlib: segmentation and parsing of MySQL SHOW output

A shallow embedding of `myqlib/parse_show.go`: the split callback of
`parseSamples`, its interval filter `skip_interval`, and the record parser
`parseBatch`, together with the library routines they call.

Byte strings are lists of byte values.  A Go slice expression that would
panic, and a fatal scanner error, are the `none` of an `Option`.
-/

namespace Myqlib

/-! ## Byte strings and the routines of package `bytes` used by the source -/

/-- A byte of a Go `[]byte`, as its numeric value. -/
abbrev Byte := Nat

/-- The bytes of an ASCII string literal. -/
def B (s : String) : List Byte := s.toList.map Char.toNat

/-- The line feed, written `'\n'` in the source. -/
def NL : Byte := 10

/-- The carriage return. -/
def CR : Byte := 13

/-- The tab, written `"\t"` in the source. -/
def TAB : Byte := 9

/-- The pipe character. -/
def PIPE : Byte := 124

/-- The space character. -/
def SPACE : Byte := 32

/-- Go `bytes.HasPrefix`. -/
def HasPrefix (s pre : List Byte) : Bool := pre.isPrefixOf s

/-- Go `bytes.Index`: the index of the first instance of `sep` in `s`, or `-1`. -/
def Index : List Byte → List Byte → Int
  | [], sep => if sep.isPrefixOf [] then 0 else -1
  | c :: s, sep =>
    if sep.isPrefixOf (c :: s) then 0
    else
      let r := Index s sep
      if r < 0 then -1 else r + 1

/-- Go `bytes.IndexByte`: the index of the first instance of `c` in `s`, or `-1`. -/
def IndexByte : List Byte → Byte → Int
  | [], _ => -1
  | b :: s, c =>
    if b = c then 0
    else
      let r := IndexByte s c
      if r < 0 then -1 else r + 1

/-- Membership of a byte in the cutset of pipe and space, the second argument of
both calls of `bytes.Trim` in the source. -/
def inCutset (b : Byte) : Bool := b == PIPE || b == SPACE

/-- Go `bytes.Trim(s, "| ")`: `s` without its leading and trailing pipes and spaces. -/
def Trim (s : List Byte) : List Byte := (s.dropWhile inCutset).rdropWhile inCutset

/-- Go `bytes.Split(s, sep)` for a one-byte separator, as in the source: the
pieces of `s` between the occurrences of `sep` (always at least one piece). -/
def Split : List Byte → Byte → List (List Byte)
  | [], _ => [[]]
  | b :: s, sep =>
    if b = sep then [] :: Split s sep
    else
      match Split s sep with
      | [] => [[b]]
      | p :: ps => (b :: p) :: ps

/-- A Go slice expression `s[lo:hi]`; `none` is the run-time panic for bounds out
of range.  Every slice expression of the source has `hi` at most `len(s)` when
it is reached, so the capacity of the slice plays no part. -/
def slice (s : List Byte) (lo hi : Int) : Option (List Byte) :=
  if 0 ≤ lo ∧ lo ≤ hi ∧ hi ≤ (s.length : Int) then
    some ((s.take hi.toNat).drop lo.toNat)
  else none

/-- Go `strings.ToLower`, taken as a parameter: the source lowers keys by the
Unicode case tables of the Go library, which are no part of the repository.
The definitions and the general theorems below are about any such function. -/
class Lowering where
  lower : List Byte → List Byte

/-- The call `strings.ToLower(s)` of the source. -/
def ToLower [L : Lowering] (s : List Byte) : List Byte := L.lower s

/-- The lower-case form of one ASCII byte. -/
def lowerByte (b : Byte) : Byte := if 65 ≤ b ∧ b ≤ 90 then b + 32 else b

/-- What `strings.ToLower` does on ASCII text: the letters `A`..`Z` are lowered
and every other byte is kept.  Only the closed instances of the theorems, all
of them on ASCII text, are stated with it. -/
instance asciiLowering : Lowering := ⟨fun s => s.map lowerByte⟩

/-! ## MyqSample -/

/-- Modelled from the spec: the type `MyqSample`, declared outside
`parse_show.go`: "a mapping from lowercase field name (string) to raw field
value (string), unique keys, insertion order irrelevant".  The entries are kept
in a list with one entry per key. -/
abbrev MyqSample := List (List Byte × List Byte)

namespace MyqSample

/-- The assignment `timesample[k] = v` on a map: overwrite the entry of `k` if
there is one, add an entry otherwise. -/
def set : MyqSample → List Byte → List Byte → MyqSample
  | [], k, v => [(k, v)]
  | (k', v') :: m, k, v => if k' = k then (k, v) :: m else (k', v') :: set m k v

/-- The map lookup `timesample[k]`, `none` for an absent key. -/
def get? : MyqSample → List Byte → Option (List Byte)
  | [], _ => none
  | (k', v') :: m, k => if k' = k then some v' else get? m k

/-- Modelled from the spec: `Length()`, declared outside `parse_show.go`, the
number of keys of the Sample ("if the resulting Sample has at least one key,
publish it"). -/
def Length (m : MyqSample) : Nat := List.length m

end MyqSample

/-! ## The line scanner and `parseBatch` -/

/-- The trailing carriage return dropped by the line scanner. -/
def dropCR (line : List Byte) : List Byte :=
  if line.getLast? = some CR then line.dropLast else line

/-- Modelled from the spec: `NewScanner` is declared outside `parse_show.go`; with
no split function set it is the line scanner of `parseBatch` ("splits the record
into lines").  As Go `bufio.ScanLines` does, it ends a line at each line feed,
drops one trailing carriage return, and yields a last unterminated line when
it is not empty.  `cur` holds the bytes of the line being read. -/
def scanLinesFrom : List Byte → List Byte → List (List Byte)
  | [], cur => if cur.isEmpty then [] else [dropCR cur]
  | b :: s, cur =>
    if b = NL then dropCR cur :: scanLinesFrom s []
    else scanLinesFrom s (cur ++ [b])

/-- The lines that `scanner.Scan()` yields in `parseBatch` for a buffer. -/
def ScanLines (buffer : List Byte) : List (List Byte) := scanLinesFrom buffer []

/-- The two layouts: `type showoutputtype uint8`. -/
inductive showoutputtype where
  | BATCH
  | TABULAR
  deriving DecidableEq, Repr

open showoutputtype

/-- The variables of `parseBatch` that live across its loop: `divideridx` and
`timesample`. -/
structure BatchState where
  divideridx : Int
  timesample : MyqSample
  deriving DecidableEq, Repr

/-- One iteration of the loop `for scanner.Scan()` of `parseBatch` on `line`;
`continue` returns the state unchanged, `none` is a slice out of range. -/
def parseLine [Lowering] (outputtype : showoutputtype) (st : BatchState) (line : List Byte) :
    Option BatchState :=
  match outputtype with
  | TABULAR =>
    if !HasPrefix line (B "|") then some st
    else
      let d := if st.divideridx = 0 then some (Index line (B " | "))
               else if (line.length : Int) < st.divideridx then none
               else some st.divideridx
      match d with
      | none => some st
      | some divideridx =>
        match slice line 0 divideridx, slice line divideridx line.length with
        | some k, some v =>
          some ⟨divideridx, st.timesample.set (ToLower (Trim k)) (Trim v)⟩
        | _, _ => none
  | BATCH =>
    match Split line TAB with
    | [key, value] => some ⟨st.divideridx, st.timesample.set (ToLower key) value⟩
    | _ => some st

/-- The loop of `parseBatch` over the lines of the buffer. -/
def parseLines [Lowering] (outputtype : showoutputtype) :
    BatchState → List (List Byte) → Option BatchState
  | st, [] => some st
  | st, line :: rest =>
    match parseLine outputtype st line with
    | none => none
    | some st' => parseLines outputtype st' rest

/-- The Sample that `parseBatch` has built when its loop ends. -/
def buildSample [Lowering] (outputtype : showoutputtype) (buffer : List Byte) :
    Option MyqSample :=
  (parseLines outputtype ⟨0, []⟩ (ScanLines buffer)).map BatchState.timesample

/-- The function `parseBatch`: the Samples sent to the channel `ch` for one
record, in order (none or one); `none` is a run-time panic. -/
def parseBatch [Lowering] (buffer : List Byte) (outputtype : showoutputtype) :
    Option (List MyqSample) :=
  match buildSample outputtype buffer with
  | none => none
  | some timesample => if timesample.Length > 0 then some [timesample] else some []

/-! ## Floating point -/

/-- The `float64` operations that `skip_interval` uses, taken as parameters: the
zero value of `var prev_uptime float64`, the test `x == 0`, subtraction, the
comparison `<`, the value returned by `strconv.ParseFloat(s, 64)` (its error is
discarded by the source; `none` stands for a syntax error, where Go returns the
value `0`), and `interval.Seconds()` of a duration given in nanoseconds. -/
structure Float64Ops (F : Type) where
  zero : F
  isZero : F → Bool
  sub : F → F → F
  lt : F → F → Bool
  ParseFloat : List Byte → Option F
  Seconds : Int → F
  isZero_zero : isZero zero = true

/-- An exact decimal number `m / 10 ^ e`. -/
structure Dec where
  m : Int
  e : Nat
  deriving DecidableEq, Repr

namespace Dec

/-- Exact subtraction. -/
def sub (a b : Dec) : Dec :=
  ⟨a.m * 10 ^ (max a.e b.e - a.e) - b.m * 10 ^ (max a.e b.e - b.e), max a.e b.e⟩

/-- Exact comparison. -/
def lt (a b : Dec) : Bool := decide (a.m * 10 ^ b.e < b.m * 10 ^ a.e)

/-- The value of an ASCII digit. -/
def digit? (b : Byte) : Option Nat := if 48 ≤ b ∧ b ≤ 57 then some (b - 48) else none

/-- Reads a run of decimal digits: the number read so far, how many digits were
read, and the rest of the input. -/
def readDigits : List Byte → Nat → Nat → Nat × Nat × List Byte
  | [], acc, n => (acc, n, [])
  | b :: s, acc, n =>
    match digit? b with
    | some d => readDigits s (acc * 10 + d) (n + 1)
    | none => (acc, n, b :: s)

/-- Reads an optional sign; `true` for a minus. -/
def readSign : List Byte → Bool × List Byte
  | 43 :: s => (false, s)
  | 45 :: s => (true, s)
  | s => (false, s)

/-- Reads the optional exponent part `e[+-]digits` and expects the end of the
input after it. -/
def readExp : List Byte → Option Int
  | [] => some 0
  | b :: s =>
    if b = 101 ∨ b = 69 then
      let (neg, s1) := readSign s
      match readDigits s1 0 0 with
      | (x, n, []) => if n = 0 then none else some (if neg then -(x : Int) else x)
      | _ => none
    else none

/-- Decimal floating-point literals as `strconv.ParseFloat` reads them: an
optional sign, digits with at most one point and at least one digit, an
optional exponent, and nothing else (no surrounding blanks).  Hexadecimal
literals, digit separators and the words `inf`, `infinity`, `nan` are not part
of this model, nor is the rounding to 64 bits. -/
def parse (s : List Byte) : Option Dec :=
  let (neg, s1) := readSign s
  let (ip, n1, s2) := readDigits s1 0 0
  let (mant, n2, s3) :=
    match s2 with
    | 46 :: t => let (fp, k, r) := readDigits t ip 0; (fp, k, r)
    | r => (ip, 0, r)
  if n1 + n2 = 0 then none
  else
    match readExp s3 with
    | none => none
    | some x =>
      let m : Int := if neg then -(mant : Int) else mant
      let sh : Int := x - n2
      some (if 0 ≤ sh then ⟨m * 10 ^ sh.toNat, 0⟩ else ⟨m, (-sh).toNat⟩)

end Dec

/-- The operations of `skip_interval` in exact decimal arithmetic.  They agree
with `float64` wherever no rounding occurs, as on whole numbers of seconds. -/
def decOps : Float64Ops Dec where
  zero := ⟨0, 0⟩
  isZero := fun a => a.m == 0
  sub := Dec.sub
  lt := Dec.lt
  ParseFloat := Dec.parse
  Seconds := fun ns => ⟨ns, 9⟩
  isZero_zero := rfl

/-! ## The split callback of `parseSamples` -/

/-- The variables of `parseSamples` that its two closures read and write. -/
structure SplitState (F : Type) where
  outputtype : showoutputtype
  typechecked : Bool
  recordmatch : List Byte
  prev_uptime : F
  deriving DecidableEq

/-- The label `uptime_str`. -/
def uptime_str : List Byte := B "Uptime"

/-- The flag `check_intervals` for an interval in nanoseconds. -/
def check_intervals (interval : Int) : Bool := decide (interval > 1000000)

/-- The closure `skip_interval`: whether `record` is skippable, and `prev_uptime`
afterwards; `none` is a slice out of range. -/
def skip_interval {F : Type} (ops : Float64Ops F) (interval : Int) (prev_uptime : F)
    (record : List Byte) : Option (Bool × F) :=
  let upt_pos : Int := Index record uptime_str + uptime_str.length
  if upt_pos ≥ 0 then
    match slice record upt_pos record.length with
    | none => none
    | some rest =>
      let upt_nl : Int := IndexByte rest NL + upt_pos
      match slice record upt_pos upt_nl with
      | none => none
      | some field =>
        let current_uptime : F := (ops.ParseFloat (Trim field)).getD ops.zero
        if ops.isZero prev_uptime then some (false, current_uptime)
        else if ops.lt (ops.sub current_uptime prev_uptime) (ops.Seconds interval) then
          some (true, prev_uptime)
        else some (false, prev_uptime)
  else some (false, prev_uptime)

/-- The first statement of the split callback: the layout check, made once. -/
def typecheck {F : Type} (st : SplitState F) (data : List Byte) : SplitState F :=
  if !st.typechecked then
    if HasPrefix data (B "+") || HasPrefix data (B "|") then
      { st with outputtype := TABULAR, recordmatch := B "| Variable_name", typechecked := true }
    else { st with typechecked := true }
  else st

/-- The split callback given to `scanner.Split`: the state afterwards, `advance`
and `token` (`none` for `nil`); the outer `none` is a run-time panic. -/
def splitFunc {F : Type} (ops : Float64Ops F) (interval : Int) (st0 : SplitState F)
    (data : List Byte) (atEOF : Bool) : Option (SplitState F × Int × Option (List Byte)) :=
  let st := typecheck st0 data
  let «end» : Int := Index data st.recordmatch
  if «end» ≥ 0 then
    match slice data «end» data.length with
    | none => none
    | some rest =>
      let nl : Int := IndexByte rest NL
      if «end» = 0 then some (st, «end» + nl + 1, none)
      else
        match slice data 0 «end» with
        | none => none
        | some record =>
          if check_intervals interval then
            match skip_interval ops interval st.prev_uptime record with
            | none => none
            | some (true, p) => some ({ st with prev_uptime := p }, «end» + nl + 1, none)
            | some (false, p) => some ({ st with prev_uptime := p }, «end» + nl + 1, some record)
          else some (st, «end» + nl + 1, some record)
  else if atEOF && decide (data.length > 0) then some (st, data.length, some data)
  else some (st, 0, none)

/-! ## The scanner loop of `parseSamples` -/

/-- What `parseSamples` leaves behind: the Samples sent to the channel, in
order, and the closure variables at the end. -/
structure Run (F : Type) where
  published : List MyqSample
  final : SplitState F

/-- Modelled from the spec: one read of the scanner of `NewScanner` (declared
outside `parse_show.go`) from its reader: the next chunk is appended to the
unconsumed buffer; once all chunks are delivered, a further read reports the
end of the stream.  The result is the buffer, the chunks still to come, and
the end-of-stream flag. -/
def readMore (buf : List Byte) : List (List Byte) → List Byte × List (List Byte) × Bool
  | [] => (buf, [], true)
  | chunk :: more => (buf ++ chunk, more, false)

/-- Modelled from the spec: the loop `for scanner.Scan()` over the scanner of
`NewScanner`, which is declared outside `parse_show.go`.  As in Go `bufio.Scanner`:
the split callback sees the unconsumed buffer `buf` whenever it is not empty or
the stream is exhausted; an advance outside `0..len(buf)` is a fatal error; a
token is handed to `parseBatch` with the current `outputtype`; without a token
the scanner stops at end of stream and otherwise reads on ("request more input
before re-scanning").  `pending` are the chunks that the reader will still
deliver, `eof` says that it has reported the end.  `none` is a panic or the
fatal error; `fuel` bounds the number of rounds. -/
def scanLoop [Lowering] {F : Type} (ops : Float64Ops F) (interval : Int) :
    Nat → SplitState F → List Byte → List (List Byte) → Bool → List MyqSample → Option (Run F)
  | 0, _, _, _, _, _ => none
  | fuel + 1, st, buf, pending, eof, out =>
    if !buf.isEmpty || eof then
      match splitFunc ops interval st buf eof with
      | none => none
      | some (st', advance, token) =>
        if advance < 0 ∨ (buf.length : Int) < advance then none
        else
          match token with
          | some record =>
            match parseBatch record st'.outputtype with
            | none => none
            | some samples =>
              scanLoop ops interval fuel st' (buf.drop advance.toNat) pending eof (out ++ samples)
          | none =>
            if eof then some ⟨out, st'⟩
            else
              match readMore (buf.drop advance.toNat) pending with
              | (buf', pending', eof') => scanLoop ops interval fuel st' buf' pending' eof' out
    else
      match readMore buf pending with
      | (buf', pending', eof') => scanLoop ops interval fuel st buf' pending' eof' out

/-- The function `parseSamples` for a reader that delivers the chunks `input` and
then reports the end of the stream.  `END_STRING` is declared outside
`parse_show.go` and is a parameter here. -/
def parseSamples [Lowering] {F : Type} (ops : Float64Ops F) (END_STRING : List Byte)
    (interval : Int)
    (input : List (List Byte)) : Option (Run F) :=
  scanLoop ops interval (2 * (input.flatten.length + input.length) + 4)
    ⟨BATCH, false, END_STRING, ops.zero⟩ [] input false []

/-! ## Notions used to state the properties -/

/-- The byte string `sep` first occurs in `s` at offset `n`. -/
def FirstAt (sep s : List Byte) (n : Nat) : Prop :=
  sep <+: s.drop n ∧ n ≤ s.length ∧ ∀ m, m < n → ¬ sep <+: s.drop m

instance (sep s : List Byte) (n : Nat) : Decidable (FirstAt sep s n) := by
  unfold FirstAt; infer_instance

/-- The first line feed of `s` at or after offset `n` is at offset `j`. -/
def FirstNLFrom (s : List Byte) (n j : Nat) : Prop :=
  n ≤ j ∧ s[j]? = some NL ∧ ∀ i, n ≤ i → i < j → s[i]? ≠ some NL

instance (s : List Byte) (n j : Nat) : Decidable (FirstNLFrom s n j) := by
  unfold FirstNLFrom; infer_instance

/-- A BATCH line `key<TAB>value`. -/
def batchLine (kv : List Byte × List Byte) : List Byte := kv.1 ++ TAB :: kv.2

/-- The bytes of a record made of the given lines, each ended by a line feed. -/
def joinLines (lines : List (List Byte)) : List Byte := (lines.map (fun l => l ++ [NL])).flatten

/-- The Sample that maps the lower-case form of each key to the value next to it. -/
def lowerKeys [Lowering] (kvs : List (List Byte × List Byte)) : MyqSample :=
  kvs.map (fun kv => (ToLower kv.1, kv.2))

/-- A BATCH stream of one record: the lines `key<TAB>value`, then the line that
begins with the end-of-record marker. -/
def batchInput (kvs : List (List Byte × List Byte)) (END_STRING tail : List Byte) : List Byte :=
  joinLines (kvs.map batchLine) ++ END_STRING ++ tail ++ [NL]

/-- A line of a TABULAR record: a row `| key<pad> | value<pad> |`, the pads being
runs of spaces, or a border line. -/
inductive TabLine where
  | row (key : List Byte) (pad : Nat) (value : List Byte) (pad' : Nat)
  | border (text : List Byte)

namespace TabLine

/-- The bytes of a line of a TABULAR record. -/
def bytes : TabLine → List Byte
  | row key pad value pad' =>
    B "| " ++ key ++ List.replicate pad SPACE ++ B " | " ++ value ++ List.replicate pad' SPACE
      ++ B " |"
  | border text => text

/-- The key and the value of a row. -/
def kv? : TabLine → Option (List Byte × List Byte)
  | row key _ value _ => some (key, value)
  | border _ => none

/-- A well-formed line of a TABULAR record with the column divider at offset `d`:
in a row the key is not empty and free of spaces, pipes and line feeds, the
space before the second pipe is at offset `d`, and the value is free of line
feeds and neither begins nor ends with a pipe or a space; a border line does
not start with a pipe and has no line feed. -/
def WellFormed (d : Nat) : TabLine → Prop
  | row key pad value _ =>
    key ≠ [] ∧ SPACE ∉ key ∧ PIPE ∉ key ∧ NL ∉ key ∧ 2 + key.length + pad = d ∧
      NL ∉ value ∧ value.head?.any inCutset = false ∧ value.getLast?.any inCutset = false
  | border text => HasPrefix text (B "|") = false ∧ NL ∉ text

instance (d : Nat) (l : TabLine) : Decidable (WellFormed d l) := by
  cases l <;> unfold WellFormed <;> infer_instance

end TabLine

/-- The keys and values of the rows among the lines of a TABULAR record. -/
def tabRows (lines : List TabLine) : List (List Byte × List Byte) := lines.filterMap TabLine.kv?

/-- The body of the loop of `parseBatch` up to the assignment to `timesample`:
`divideridx` after the round on `line`, and the `key` and `value` that the
round goes on to assign, `none` for `continue`; the outer `none` is a slice
out of range. -/
def lineField (outputtype : showoutputtype) (divideridx : Int) (line : List Byte) :
    Option (Int × Option (List Byte × List Byte)) :=
  match outputtype with
  | TABULAR =>
    if !HasPrefix line (B "|") then some (divideridx, none)
    else
      let d := if divideridx = 0 then some (Index line (B " | "))
               else if (line.length : Int) < divideridx then none
               else some divideridx
      match d with
      | none => some (divideridx, none)
      | some divideridx' =>
        match slice line 0 divideridx', slice line divideridx' line.length with
        | some k, some v => some (divideridx', some (Trim k, Trim v))
        | _, _ => none
  | BATCH =>
    match Split line TAB with
    | [key, value] => some (divideridx, some (key, value))
    | _ => some (divideridx, none)

/-- The keys and values that the rounds of the loop of `parseBatch` assign, in
the order of the lines; `none` is a slice out of range. -/
def fields (outputtype : showoutputtype) : Int → List (List Byte) →
    Option (List (List Byte × List Byte))
  | _, [] => some []
  | d, line :: rest =>
    match lineField outputtype d line with
    | none => none
    | some (d', f) =>
      match fields outputtype d' rest with
      | none => none
      | some fs => some (f.toList ++ fs)

/-- The assignments `timesample[k] = v` for the pairs of a list, in order. -/
def setAll (m : MyqSample) (kvs : List (List Byte × List Byte)) : MyqSample :=
  kvs.foldl (fun acc kv => MyqSample.set acc kv.1 kv.2) m

/-- A line of spaces and tabs only; the empty line is one. -/
def Blank (line : List Byte) : Prop := ∀ b ∈ line, b = SPACE ∨ b = TAB

instance (line : List Byte) : Decidable (Blank line) := by
  unfold Blank; infer_instance

/-- A place where a line can be put into a record: its start, or just after a
line feed. -/
def LineStart (before : List Byte) : Prop := before = [] ∨ before.getLast? = some NL

instance (before : List Byte) : Decidable (LineStart before) := by
  unfold LineStart; infer_instance

/-! ## Lemmas on the byte-string routines -/


theorem Index_ge (s sep : List Byte) : -1 ≤ Index s sep := by
  induction s with
  | nil => unfold Index; split <;> simp
  | cons c s ih => unfold Index; split <;> [simp; (simp only []; split <;> omega)]

theorem Index_le_length (s sep : List Byte) : Index s sep ≤ (s.length : Int) := by
  induction s with
  | nil => unfold Index; split <;> simp
  | cons c s ih =>
    unfold Index
    split
    · simp; omega
    · simp only [List.length_cons, Nat.cast_add, Nat.cast_one]; split <;> omega

theorem Index_of_leading {s sep : List Byte} (h : sep <+: s) : Index s sep = 0 := by
  have h' : sep.isPrefixOf s = true := List.isPrefixOf_iff_prefix.mpr h
  cases s <;> simp [Index, h']

theorem Index_cons_skip {c : Byte} {s sep : List Byte} (h : ¬ sep <+: c :: s) :
    Index (c :: s) sep = if Index s sep < 0 then -1 else Index s sep + 1 := by
  have h' : sep.isPrefixOf (c :: s) = false := by
    rw [Bool.eq_false_iff]; intro hp; exact h (List.isPrefixOf_iff_prefix.mp hp)
  rw [Index]; simp [h']

theorem Index_of_firstAt {sep : List Byte} : ∀ {s : List Byte} {n : Nat},
    FirstAt sep s n → Index s sep = n := by
  intro s n
  induction n generalizing s with
  | zero => intro h; simpa using Index_of_leading (by simpa using h.1)
  | succ n ih =>
    intro h
    obtain ⟨h1, h2, h3⟩ := h
    cases s with
    | nil => simp at h2
    | cons c s =>
      have h0 : ¬ sep <+: c :: s := by simpa using h3 0 (Nat.succ_pos n)
      have hs : FirstAt sep s n :=
        ⟨by simpa using h1, by simpa using h2, fun m hm => by simpa using h3 (m + 1) (by omega)⟩
      rw [Index_cons_skip h0, ih hs]
      simp

theorem Index_of_absent {sep : List Byte} : ∀ {s : List Byte}, ¬ sep <:+: s → Index s sep = -1 := by
  intro s
  induction s with
  | nil =>
    intro h
    have : sep.isPrefixOf [] = false := by
      rw [Bool.eq_false_iff]; intro hp; exact h (List.isPrefixOf_iff_prefix.mp hp).isInfix
    simp [Index, this]
  | cons c s ih =>
    intro h
    have h0 : ¬ sep <+: c :: s := fun hp => h hp.isInfix
    have hs : ¬ sep <:+: s := fun hp => h (hp.trans (List.suffix_cons c s).isInfix)
    rw [Index_cons_skip h0, ih hs]; simp

theorem Index_append_skip {sep rest : List Byte} : ∀ (a : List Byte),
    (∀ m, m < a.length → ¬ sep <+: (a ++ rest).drop m) →
    Index (a ++ rest) sep = if Index rest sep < 0 then -1 else (a.length : Int) + Index rest sep := by
  intro a
  induction a with
  | nil => intro _; have := Index_ge rest sep; simp; omega
  | cons c a ih =>
    intro h
    have h0 : ¬ sep <+: c :: (a ++ rest) := by simpa using h 0 (by simp)
    have hs : ∀ m, m < a.length → ¬ sep <+: (a ++ rest).drop m := fun m hm => by
      simpa using h (m + 1) (by simp; omega)
    rw [List.cons_append, Index_cons_skip h0, ih hs]
    have := Index_ge rest sep
    split
    · simp
    · simp only [List.length_cons, Nat.cast_add, Nat.cast_one]
      rw [if_neg (by omega)]; omega

theorem IndexByte_ge (s : List Byte) (c : Byte) : -1 ≤ IndexByte s c := by
  induction s with
  | nil => simp [IndexByte]
  | cons b s ih => unfold IndexByte; split <;> [simp; (simp only []; split <;> omega)]

theorem IndexByte_of_not_mem {c : Byte} : ∀ {s : List Byte}, c ∉ s → IndexByte s c = -1 := by
  intro s
  induction s with
  | nil => intro _; rfl
  | cons b s ih =>
    intro h
    have hb : ¬ b = c := fun e => h (by simp [e])
    have hs : c ∉ s := fun e => h (by simp [e])
    simp [IndexByte, hb, ih hs]

theorem IndexByte_append {c : Byte} {b : List Byte} : ∀ {a : List Byte}, c ∉ a →
    IndexByte (a ++ c :: b) c = a.length := by
  intro a
  induction a with
  | nil => intro _; simp [IndexByte]
  | cons x a ih =>
    intro h
    have hx : ¬ x = c := fun e => h (by simp [e])
    have hs : c ∉ a := fun e => h (by simp [e])
    simp [IndexByte, hx, ih hs]

theorem slice_drop (s : List Byte) (n : Nat) (h : n ≤ s.length) :
    slice s n s.length = some (s.drop n) := by
  simp [slice, h]

theorem slice_take (s : List Byte) (n : Nat) (h : n ≤ s.length) :
    slice s 0 n = some (s.take n) := by
  simp [slice, h]

theorem slice_mid (s : List Byte) (lo hi : Nat) (h1 : lo ≤ hi) (h2 : hi ≤ s.length) :
    slice s lo hi = some ((s.take hi).drop lo) := by
  simp [slice, h1, h2]

theorem IndexByte_of_first {c : Byte} : ∀ {s : List Byte} {n : Nat},
    s[n]? = some c → (∀ m, m < n → s[m]? ≠ some c) → IndexByte s c = n := by
  intro s n
  induction n generalizing s with
  | zero =>
    intro h _
    cases s with
    | nil => simp at h
    | cons b s => simp at h; simp [IndexByte, h]
  | succ n ih =>
    intro h hlt
    cases s with
    | nil => simp at h
    | cons b s =>
      have hb : ¬ b = c := by simpa using hlt 0 (Nat.succ_pos n)
      have hs : IndexByte s c = n :=
        ih (by simpa using h) (fun m hm => by simpa using hlt (m + 1) (by omega))
      simp [IndexByte, hb, hs]

theorem IndexByte_drop_of_firstNL {s : List Byte} {n j : Nat} (h : FirstNLFrom s n j) :
    IndexByte (s.drop n) NL = (j : Int) - n := by
  obtain ⟨h1, h2, h3⟩ := h
  obtain ⟨k, rfl⟩ := Nat.exists_eq_add_of_le h1
  have := @IndexByte_of_first NL (s.drop n) k (by simpa [List.getElem?_drop] using h2)
    (fun m hm => by simpa [List.getElem?_drop] using h3 (n + m) (by omega) (by omega))
  rw [this]; push_cast; omega

/-! ## Lemmas on the split callback and the interval filter -/

theorem typecheck_prev_uptime {F : Type} (st : SplitState F) (data : List Byte) :
    (typecheck st data).prev_uptime = st.prev_uptime := by
  unfold typecheck; split <;> [split; skip] <;> rfl

theorem typecheck_of_checked {F : Type} (st : SplitState F) (data : List Byte)
    (h : st.typechecked = true) : typecheck st data = st := by
  simp [typecheck, h]

/-- The value that `skip_interval` computes from the text of the uptime field. -/
theorem skip_interval_of_field {F : Type} (ops : Float64Ops F) (interval : Int) (prev : F)
    (record pre mid post : List Byte)
    (hrec : record = pre ++ uptime_str ++ mid ++ NL :: post)
    (hlabel : FirstAt uptime_str record pre.length) (hmid : NL ∉ mid) :
    skip_interval ops interval prev record =
      if ops.isZero prev then some (false, (ops.ParseFloat (Trim mid)).getD ops.zero)
      else if ops.lt (ops.sub ((ops.ParseFloat (Trim mid)).getD ops.zero) prev)
          (ops.Seconds interval) then some (true, prev)
      else some (false, prev) := by
  have hidx := Index_of_firstAt hlabel
  have hlen : uptime_str.length = 6 := by decide
  have hreclen : record.length = pre.length + 6 + mid.length + 1 + post.length := by
    rw [hrec]; simp [hlen]; omega
  have hdrop : record.drop (pre.length + 6) = mid ++ NL :: post := by
    rw [hrec]
    have : pre ++ uptime_str ++ mid ++ NL :: post = (pre ++ uptime_str) ++ (mid ++ NL :: post) := by
      simp
    rw [this, List.drop_left' (by simp [hlen])]
  have hs1 : slice record ((pre.length : Int) + 6) record.length = some (mid ++ NL :: post) := by
    have := slice_drop record (pre.length + 6) (by omega)
    rw [hdrop] at this; simpa using this
  have hs2 : slice record ((pre.length : Int) + 6) ((mid.length : Int) + ((pre.length : Int) + 6))
      = some mid := by
    have := slice_mid record (pre.length + 6) (mid.length + (pre.length + 6)) (by omega) (by omega)
    rw [List.drop_take] at this
    rw [hdrop] at this
    simpa using this
  unfold skip_interval
  simp only [hidx, hlen, Nat.cast_ofNat]
  rw [if_pos (by omega), hs1]
  simp only [IndexByte_append hmid, hs2]

theorem splitFunc_found {F : Type} (ops : Float64Ops F) (interval : Int) (st : SplitState F)
    (data : List Byte) (atEOF : Bool) (e : Nat)
    (hfirst : FirstAt (typecheck st data).recordmatch data e) (hpos : 0 < e) :
    splitFunc ops interval st data atEOF =
      if check_intervals interval then
        match skip_interval ops interval (typecheck st data).prev_uptime (data.take e) with
        | none => none
        | some (true, p) =>
          some ({ typecheck st data with prev_uptime := p },
            (e : Int) + IndexByte (data.drop e) NL + 1, none)
        | some (false, p) =>
          some ({ typecheck st data with prev_uptime := p },
            (e : Int) + IndexByte (data.drop e) NL + 1, some (data.take e))
      else some (typecheck st data, (e : Int) + IndexByte (data.drop e) NL + 1, some (data.take e)) := by
  have hidx := Index_of_firstAt hfirst
  have hle : e ≤ data.length := hfirst.2.1
  unfold splitFunc
  simp only [hidx]
  rw [if_pos (by omega), slice_drop data e hle]
  simp only []
  rw [if_neg (by omega)]
  have := slice_take data e hle
  simp only [Nat.cast_zero] at this ⊢
  rw [this]

/-- In exact decimal arithmetic a difference `a - b` with `a < b` is below every
positive interval. -/
theorem decOps_sub_lt (interval : Int) (hpos : 0 < interval) (a b : Dec)
    (h : decOps.lt a b = true) :
    decOps.lt (decOps.sub a b) (decOps.Seconds interval) = true := by
  have H : a.m * 10 ^ b.e < b.m * 10 ^ a.e := by simpa [decOps, Dec.lt] using h
  have hp : ∀ n : Nat, (0 : Int) < 10 ^ n := fun n => by positivity
  have ha : a.e + (max a.e b.e - a.e) = max a.e b.e := by omega
  have hb : b.e + (max a.e b.e - b.e) = max a.e b.e := by omega
  have hXY : a.m * 10 ^ (max a.e b.e - a.e) < b.m * 10 ^ (max a.e b.e - b.e) := by
    have h1 : a.m * 10 ^ (max a.e b.e - a.e) * 10 ^ (max a.e b.e)
        = (a.m * 10 ^ b.e) * (10 ^ (max a.e b.e - a.e) * 10 ^ (max a.e b.e - b.e)) := by
      have hM : (10 : Int) ^ (max a.e b.e) = 10 ^ b.e * 10 ^ (max a.e b.e - b.e) := by
        rw [← pow_add, hb]
      rw [hM]; ring
    have h2 : b.m * 10 ^ (max a.e b.e - b.e) * 10 ^ (max a.e b.e)
        = (b.m * 10 ^ a.e) * (10 ^ (max a.e b.e - a.e) * 10 ^ (max a.e b.e - b.e)) := by
      have hM : (10 : Int) ^ (max a.e b.e) = 10 ^ a.e * 10 ^ (max a.e b.e - a.e) := by
        rw [← pow_add, ha]
      rw [hM]; ring
    have h3 := mul_lt_mul_of_pos_right H (mul_pos (hp (max a.e b.e - a.e)) (hp (max a.e b.e - b.e)))
    rw [← h1, ← h2] at h3
    exact lt_of_mul_lt_mul_right h3 (le_of_lt (hp _))
  have hneg : (a.m * 10 ^ (max a.e b.e - a.e) - b.m * 10 ^ (max a.e b.e - b.e)) * 10 ^ 9 < 0 :=
    mul_neg_of_neg_of_pos (by omega) (hp 9)
  have hposr : 0 < interval * 10 ^ (max a.e b.e) := mul_pos hpos (hp _)
  simp only [decOps, Dec.lt, Dec.sub, decide_eq_true_eq]
  omega

/-! ## Lemmas on lines, fields and Samples -/

theorem dropCR_of_getLast {line : List Byte} (h : line.getLast? ≠ some CR) : dropCR line = line := by
  simp [dropCR, h]

theorem scanLinesFrom_line {rest : List Byte} : ∀ (line cur : List Byte), NL ∉ line →
    scanLinesFrom (line ++ NL :: rest) cur = dropCR (cur ++ line) :: scanLinesFrom rest [] := by
  intro line
  induction line with
  | nil => intro cur _; simp [scanLinesFrom]
  | cons b line ih =>
    intro cur h
    have hb : ¬ b = NL := fun e => h (by simp [e])
    have hl : NL ∉ line := fun e => h (by simp [e])
    rw [List.cons_append, scanLinesFrom, if_neg hb, ih (cur ++ [b]) hl]
    simp

/-- The bytes of a record whose lines are `lines`, each ended by a line feed. -/
theorem ScanLines_flatten : ∀ (lines : List (List Byte)), (∀ l ∈ lines, NL ∉ l) →
    ScanLines ((lines.map (fun l => l ++ [NL])).flatten) = lines.map dropCR := by
  intro lines
  induction lines with
  | nil => intro _; rfl
  | cons l lines ih =>
    intro h
    have hl : NL ∉ l := h l (by simp)
    have hr : ∀ l' ∈ lines, NL ∉ l' := fun l' hl' => h l' (by simp [hl'])
    have := ih hr
    unfold ScanLines at this ⊢
    simp only [List.map_cons, List.flatten_cons, List.append_assoc, List.singleton_append]
    rw [scanLinesFrom_line l [] hl, this]
    simp

theorem Split_of_not_mem {sep : Byte} : ∀ {s : List Byte}, sep ∉ s → Split s sep = [s] := by
  intro s
  induction s with
  | nil => intro _; rfl
  | cons b s ih =>
    intro h
    have hb : ¬ b = sep := fun e => h (by simp [e])
    have hs : sep ∉ s := fun e => h (by simp [e])
    simp [Split, hb, ih hs]

theorem Split_pair {sep : Byte} {v : List Byte} (hv : sep ∉ v) : ∀ {k : List Byte}, sep ∉ k →
    Split (k ++ sep :: v) sep = [k, v] := by
  intro k
  induction k with
  | nil => intro _; simp [Split, Split_of_not_mem hv]
  | cons b k ih =>
    intro h
    have hb : ¬ b = sep := fun e => h (by simp [e])
    have hs : sep ∉ k := fun e => h (by simp [e])
    simp [Split, hb, ih hs]

theorem dropWhile_cutset_append {l x : List Byte} (hl : ∀ b ∈ l, inCutset b = true)
    (hx : ∀ b, x.head? = some b → inCutset b = false) :
    (l ++ x).dropWhile inCutset = x := by
  induction l with
  | nil =>
    cases x with
    | nil => rfl
    | cons b x => simp [List.dropWhile, hx b (by simp)]
  | cons a l ih =>
    have ha : inCutset a = true := hl a (by simp)
    simp only [List.cons_append, List.dropWhile, ha]
    exact ih (fun b hb => hl b (by simp [hb]))

theorem rdropWhile_cutset_append {x r : List Byte} (hr : ∀ b ∈ r, inCutset b = true)
    (hx : ∀ b, x.getLast? = some b → inCutset b = false) :
    (x ++ r).rdropWhile inCutset = x := by
  unfold List.rdropWhile
  rw [List.reverse_append, dropWhile_cutset_append (l := r.reverse) (x := x.reverse)
    (fun b hb => hr b (by simpa using hb))
    (fun b hb => hx b (by simpa [List.head?_reverse] using hb))]
  simp

/-- Trimming gives back a text that neither begins nor ends with a pipe or a
space, whatever pipes and spaces surround it. -/
theorem Trim_sandwich {l x r : List Byte} (hl : ∀ b ∈ l, inCutset b = true)
    (hr : ∀ b ∈ r, inCutset b = true)
    (hx1 : ∀ b, x.head? = some b → inCutset b = false)
    (hx2 : ∀ b, x.getLast? = some b → inCutset b = false) :
    Trim (l ++ x ++ r) = x := by
  unfold Trim
  cases x with
  | nil =>
    have : ([] : List Byte) ++ (l ++ r) = l ++ [] ++ r := by simp
    have h0 : (l ++ [] ++ r).dropWhile inCutset = [] := by
      have := dropWhile_cutset_append (l := l ++ r) (x := [])
        (fun b hb => by rcases List.mem_append.mp hb with h | h <;> [exact hl b h; exact hr b h])
        (by simp)
      simpa using this
    rw [h0]; rfl
  | cons c x =>
    have h1 : (l ++ (c :: x ++ r)).dropWhile inCutset = c :: x ++ r :=
      dropWhile_cutset_append hl (fun b hb => hx1 b (by simpa using hb))
    rw [List.append_assoc, h1]
    exact rdropWhile_cutset_append hr hx2

namespace MyqSample

theorem set_of_not_mem {k v : List Byte} : ∀ {m : MyqSample}, k ∉ m.map Prod.fst →
    set m k v = m ++ [(k, v)] := by
  intro m
  induction m with
  | nil => intro _; rfl
  | cons e m ih =>
    intro h
    obtain ⟨k', v'⟩ := e
    have hk : ¬ k' = k := fun e => h (by simp [e])
    have hm : k ∉ m.map Prod.fst := fun e => h (by simp [e])
    simp [set, hk, ih hm]

theorem get?_of_mem {k v : List Byte} : ∀ {m : MyqSample}, (m.map Prod.fst).Nodup → (k, v) ∈ m →
    get? m k = some v := by
  intro m
  induction m with
  | nil => intro _ h; simp at h
  | cons e m ih =>
    intro hnd hmem
    obtain ⟨k', v'⟩ := e
    simp only [List.map_cons, List.nodup_cons] at hnd
    rcases List.mem_cons.mp hmem with h | h
    · cases h; simp [get?]
    · have hk : ¬ k' = k := fun e => hnd.1 (by rw [e]; exact List.mem_map_of_mem Prod.fst h)
      simp [get?, hk, ih hnd.2 h]

theorem mem_of_get? {k v : List Byte} : ∀ {m : MyqSample}, get? m k = some v → (k, v) ∈ m := by
  intro m
  induction m with
  | nil => intro h; simp [get?] at h
  | cons e m ih =>
    intro h
    obtain ⟨k', v'⟩ := e
    by_cases hk : k' = k
    · simp [get?, hk] at h; simp [hk, h]
    · simp [get?, hk] at h; simp [ih h]

end MyqSample

/-- Adding entries with new, pairwise distinct keys to a Sample appends them. -/
theorem foldl_set_distinct : ∀ (kvs : MyqSample) (m : MyqSample),
    ((m ++ kvs).map Prod.fst).Nodup →
    kvs.foldl (fun acc kv => MyqSample.set acc kv.1 kv.2) m = m ++ kvs := by
  intro kvs
  induction kvs with
  | nil => intro m _; simp
  | cons kv kvs ih =>
    intro m h
    have hk : kv.1 ∉ m.map Prod.fst := by
      intro hmem
      rw [List.map_append, List.nodup_append] at h
      exact h.2.2 hmem (by simp)
    simp only [List.foldl_cons]
    rw [MyqSample.set_of_not_mem hk, ih (m ++ [kv]) (by simpa using h)]
    simp

/-! ## Lemmas on the scanner loop -/

theorem prefix_append_cases {s a b : List Byte} (h : s <+: a ++ b) :
    s <+: a ∨ ∃ t, s = a ++ t ∧ t <+: b := by
  rcases List.prefix_or_prefix_of_prefix h (List.prefix_append a b) with h1 | h1
  · exact Or.inl h1
  · obtain ⟨t, rfl⟩ := h1
    exact Or.inr ⟨t, rfl, (List.prefix_append_right_inj a).mp h⟩

/-- A text without line feed that is in no line does not begin inside a line. -/
theorem not_prefix_in_line {sep l r : List Byte} (hnl : NL ∉ sep) (hl : ¬ sep <:+: l) (m : Nat) :
    ¬ sep <+: l.drop m ++ NL :: r := by
  intro h
  have hsuf : l.drop m <:+ l := List.drop_suffix m l
  rcases prefix_append_cases h with h1 | ⟨t, rfl, ht⟩
  · exact hl (h1.isInfix.trans hsuf.isInfix)
  · cases t with
    | nil => exact hl (by simpa using hsuf.isInfix)
    | cons c t =>
      have : c = NL := by
        have := List.cons_prefix_cons.mp ht
        exact this.1
      exact hnl (by simp [this])

theorem joinLines_cons (l : List Byte) (ls : List (List Byte)) :
    joinLines (l :: ls) = l ++ NL :: joinLines ls := by
  simp [joinLines]

theorem ScanLines_joinLines (lines : List (List Byte)) (h : ∀ l ∈ lines, NL ∉ l) :
    ScanLines (joinLines lines) = lines.map dropCR :=
  ScanLines_flatten lines h

/-- A text without line feed that is in none of the lines does not begin
anywhere in the record made of these lines. -/
theorem not_prefix_in_joinLines {sep rest : List Byte} (hnl : NL ∉ sep) :
    ∀ (lines : List (List Byte)), (∀ l ∈ lines, ¬ sep <:+: l) →
    ∀ m, m < (joinLines lines).length → ¬ sep <+: (joinLines lines ++ rest).drop m := by
  intro lines
  induction lines with
  | nil => intro _ m hm; simp [joinLines] at hm
  | cons l ls ih =>
    intro h m hm
    have hl : ¬ sep <:+: l := h l (by simp)
    have hls : ∀ l' ∈ ls, ¬ sep <:+: l' := fun l' hl' => h l' (by simp [hl'])
    rw [joinLines_cons] at hm ⊢
    by_cases hml : m ≤ l.length
    · have : (l ++ NL :: joinLines ls ++ rest).drop m
          = l.drop m ++ NL :: (joinLines ls ++ rest) := by
        rw [List.append_assoc, List.drop_append_of_le_length hml]; simp
      rw [this]
      exact not_prefix_in_line hnl hl m
    · obtain ⟨m', rfl⟩ : ∃ m', m = (l ++ [NL]).length + m' :=
        ⟨m - (l.length + 1), by simp; omega⟩
      have : l ++ NL :: joinLines ls ++ rest = (l ++ [NL]) ++ (joinLines ls ++ rest) := by simp
      rw [this, List.drop_append]
      exact ih hls m' (by simp at hm; omega)

theorem splitFunc_no_marker {F : Type} (ops : Float64Ops F) (interval : Int) (st : SplitState F)
    (data : List Byte) (atEOF : Bool) (h : ¬ (typecheck st data).recordmatch <:+: data) :
    splitFunc ops interval st data atEOF =
      if atEOF && decide (data.length > 0) then
        some (typecheck st data, (data.length : Int), some data)
      else some (typecheck st data, 0, none) := by
  unfold splitFunc
  simp only [Index_of_absent h]
  rw [if_neg (by omega)]

theorem splitFunc_marker_first {F : Type} (ops : Float64Ops F) (interval : Int)
    (st : SplitState F) (data : List Byte) (atEOF : Bool)
    (h : (typecheck st data).recordmatch <+: data) :
    splitFunc ops interval st data atEOF =
      some (typecheck st data, IndexByte data NL + 1, none) := by
  unfold splitFunc
  simp only [Index_of_leading h]
  have := slice_drop data 0 (Nat.zero_le _)
  simp only [Nat.cast_zero, List.drop_zero] at this
  rw [if_pos (by omega), this]
  simp

theorem scanLoop_read [Lowering] {F : Type} (ops : Float64Ops F) (interval : Int) (fuel : Nat)
    (st : SplitState F) (pending : List (List Byte)) (out : List MyqSample) :
    scanLoop ops interval (fuel + 1) st [] pending false out =
      scanLoop ops interval fuel st (readMore [] pending).1 (readMore [] pending).2.1
        (readMore [] pending).2.2 out := by
  rw [scanLoop]; simp

theorem scanLoop_token [Lowering] {F : Type} (ops : Float64Ops F) (interval : Int) (fuel : Nat)
    (st st' : SplitState F) (buf record : List Byte) (pending : List (List Byte)) (eof : Bool)
    (out samples : List MyqSample) (advance : Nat)
    (hcall : buf ≠ [] ∨ eof = true)
    (hsplit : splitFunc ops interval st buf eof = some (st', (advance : Int), some record))
    (hadv : advance ≤ buf.length)
    (hparse : parseBatch record st'.outputtype = some samples) :
    scanLoop ops interval (fuel + 1) st buf pending eof out =
      scanLoop ops interval fuel st' (buf.drop advance) pending eof (out ++ samples) := by
  have hc : (!buf.isEmpty || eof) = true := by
    rcases hcall with h | h
    · cases buf <;> simp_all
    · simp [h]
  rw [scanLoop]
  simp only [hc, if_true, hsplit]
  rw [if_neg (by omega)]
  simp [hparse]

theorem scanLoop_no_token [Lowering] {F : Type} (ops : Float64Ops F) (interval : Int) (fuel : Nat)
    (st st' : SplitState F) (buf : List Byte) (pending : List (List Byte))
    (out : List MyqSample) (advance : Nat)
    (hcall : buf ≠ [])
    (hsplit : splitFunc ops interval st buf false = some (st', (advance : Int), none))
    (hadv : advance ≤ buf.length) :
    scanLoop ops interval (fuel + 1) st buf pending false out =
      scanLoop ops interval fuel st' (readMore (buf.drop advance) pending).1
        (readMore (buf.drop advance) pending).2.1 (readMore (buf.drop advance) pending).2.2 out := by
  have hc : (!buf.isEmpty || false) = true := by cases buf <;> simp_all
  rw [scanLoop]
  simp only [hc, if_true, hsplit]
  rw [if_neg (by omega)]
  simp

theorem scanLoop_done [Lowering] {F : Type} (ops : Float64Ops F) (interval : Int) (fuel : Nat)
    (st st' : SplitState F) (buf : List Byte) (pending : List (List Byte))
    (out : List MyqSample) (advance : Nat)
    (hsplit : splitFunc ops interval st buf true = some (st', (advance : Int), none))
    (hadv : advance ≤ buf.length) :
    scanLoop ops interval (fuel + 1) st buf pending true out = some ⟨out, st'⟩ := by
  rw [scanLoop]
  simp only [Bool.or_true, if_true, hsplit]
  rw [if_neg (by omega)]

theorem splitFunc_nil_eof {F : Type} (ops : Float64Ops F) (interval : Int) (st : SplitState F)
    (hchecked : st.typechecked = true) (hmark : st.recordmatch ≠ []) :
    splitFunc ops interval st [] true = some (st, ((0 : Nat) : Int), none) := by
  have h : ¬ (typecheck st []).recordmatch <:+: [] := by
    rw [typecheck_of_checked st [] hchecked]
    simpa using hmark
  rw [splitFunc_no_marker ops interval st [] true h, typecheck_of_checked st [] hchecked]
  simp

/-! ## Lemmas on `parseBatch` -/

theorem lowerKeys_get? [Lowering] {kvs : List (List Byte × List Byte)}
    (hdistinct : (kvs.map (fun kv => ToLower kv.1)).Nodup) :
    (∀ kv ∈ kvs, (lowerKeys kvs).get? (ToLower kv.1) = some kv.2) ∧
    (∀ k v, (lowerKeys kvs).get? k = some v → ∃ kv ∈ kvs, k = ToLower kv.1 ∧ v = kv.2) := by
  have hnd : ((lowerKeys kvs).map Prod.fst).Nodup := by
    simpa [lowerKeys, Function.comp_def] using hdistinct
  constructor
  · intro kv hkv
    exact MyqSample.get?_of_mem hnd (List.mem_map_of_mem (fun kv => (ToLower kv.1, kv.2)) hkv)
  · intro k v h
    have := MyqSample.mem_of_get? h
    simp only [lowerKeys, List.mem_map, Prod.mk.injEq] at this
    obtain ⟨kv, hkv, h1, h2⟩ := this
    exact ⟨kv, hkv, h1.symm, h2.symm⟩

/-- The loop of `parseBatch` in layout BATCH over well-formed lines. -/
theorem parseLines_batch [Lowering] (d : Int) : ∀ (kvs : List (List Byte × List Byte)) (m : MyqSample),
    (∀ kv ∈ kvs, TAB ∉ kv.1 ∧ TAB ∉ kv.2) →
    parseLines BATCH ⟨d, m⟩ (kvs.map batchLine) =
      some ⟨d, (lowerKeys kvs).foldl (fun acc kv => MyqSample.set acc kv.1 kv.2) m⟩ := by
  intro kvs
  induction kvs with
  | nil => intro m _; rfl
  | cons kv kvs ih =>
    intro m h
    have hkv := h kv (by simp)
    have hs : Split (batchLine kv) TAB = [kv.1, kv.2] := Split_pair hkv.2 hkv.1
    simp only [List.map_cons, parseLines, parseLine, hs]
    rw [ih _ (fun kv' hkv' => h kv' (by simp [hkv']))]
    simp [lowerKeys]

theorem dropCR_batchLine {kv : List Byte × List Byte} (h : CR ∉ kv.2) :
    dropCR (batchLine kv) = batchLine kv := by
  apply dropCR_of_getLast
  unfold batchLine
  rw [List.getLast?_append]
  intro hc
  cases hv : kv.2 with
  | nil => rw [hv] at hc; simp [TAB, CR] at hc
  | cons b v =>
    rw [hv] at hc
    have : (b :: v).getLast? = some CR := by
      simpa [List.getLast?_cons_cons] using hc
    have hmem : CR ∈ b :: v := List.mem_of_getLast?_eq_some this
    exact h (hv ▸ hmem)

/-- The Sample that `parseBatch` builds from a well-formed BATCH record. -/
theorem buildSample_batch [Lowering] (kvs : List (List Byte × List Byte))
    (hkey : ∀ kv ∈ kvs, TAB ∉ kv.1 ∧ NL ∉ kv.1)
    (hval : ∀ kv ∈ kvs, TAB ∉ kv.2 ∧ NL ∉ kv.2 ∧ CR ∉ kv.2)
    (hdistinct : (kvs.map (fun kv => ToLower kv.1)).Nodup) :
    buildSample BATCH (joinLines (kvs.map batchLine)) = some (lowerKeys kvs) := by
  have hnl : ∀ l ∈ kvs.map batchLine, NL ∉ l := by
    intro l hl
    obtain ⟨kv, hkv, rfl⟩ := List.mem_map.mp hl
    have h1 := (hkey kv hkv).2
    have h2 := (hval kv hkv).2.1
    simp [batchLine, h1, h2]
    decide
  have hcr : (kvs.map batchLine).map dropCR = kvs.map batchLine := by
    rw [List.map_map]
    apply List.map_congr_left
    intro kv hkv
    exact dropCR_batchLine (hval kv hkv).2.2
  unfold buildSample
  rw [ScanLines_joinLines _ hnl, hcr,
    parseLines_batch 0 kvs [] (fun kv hkv => ⟨(hkey kv hkv).1, (hval kv hkv).1⟩),
    foldl_set_distinct (lowerKeys kvs) []
      (by simpa [lowerKeys, Function.comp_def] using hdistinct)]
  simp

/-! ## Lemmas on `parseBatch` in layout TABULAR -/

theorem B_pipe : B "|" = [PIPE] := by decide

theorem B_pipe_space : B "| " = [PIPE, SPACE] := by decide

theorem B_space_pipe : B " |" = [SPACE, PIPE] := by decide

theorem B_divider : B " | " = [SPACE, PIPE, SPACE] := by decide

/-- The divider does not begin before the end of a text that has no pipe after
its first byte. -/
theorem divider_not_before {r : List Byte} : ∀ (m : Nat) (x : Byte) (t : List Byte), PIPE ∉ t →
    m ≤ t.length → ¬ B " | " <+: (x :: (t ++ SPACE :: PIPE :: SPACE :: r)).drop m := by
  intro m
  induction m with
  | zero =>
    intro x t ht _ h
    rw [B_divider, List.drop_zero] at h
    cases t with
    | nil =>
      have := (List.cons_prefix_cons.mp (List.cons_prefix_cons.mp h).2).1
      simp [PIPE, SPACE] at this
    | cons y t =>
      have := (List.cons_prefix_cons.mp (List.cons_prefix_cons.mp h).2).1
      exact ht (by simp [← this])
  | succ m ih =>
    intro x t ht hm
    cases t with
    | nil => simp at hm
    | cons y t =>
      simp only [List.cons_append, List.drop_succ_cons]
      exact ih y t (fun h => ht (by simp [h])) (by simpa using hm)

theorem Index_divider {x : Byte} {t r : List Byte} (ht : PIPE ∉ t) :
    Index (x :: t ++ SPACE :: PIPE :: SPACE :: r) (B " | ") = ((x :: t).length : Int) := by
  have h := @Index_append_skip (B " | ") (SPACE :: PIPE :: SPACE :: r) (x :: t)
    (fun m hm => by
      have := divider_not_before (r := r) m x t ht (by simpa using Nat.lt_succ_iff.mp hm)
      simpa using this)
  have h0 : Index (SPACE :: PIPE :: SPACE :: r) (B " | ") = 0 :=
    Index_of_leading (by rw [B_divider]; exact List.prefix_append [SPACE, PIPE, SPACE] r)
  rw [h, h0]; simp

theorem not_inCutset_of_mem {key : List Byte} (h1 : SPACE ∉ key) (h2 : PIPE ∉ key) :
    ∀ b ∈ key, inCutset b = false := by
  intro b hb
  have hp : b ≠ PIPE := fun e => h2 (e ▸ hb)
  have hs : b ≠ SPACE := fun e => h1 (e ▸ hb)
  simp [inCutset, hp, hs]

theorem any_head_false {p : Byte → Bool} {x : List Byte} (h : x.head?.any p = false) :
    ∀ b, x.head? = some b → p b = false := by
  intro b hb; rw [hb] at h; simpa using h

theorem any_getLast_false {p : Byte → Bool} {x : List Byte} (h : x.getLast?.any p = false) :
    ∀ b, x.getLast? = some b → p b = false := by
  intro b hb; rw [hb] at h; simpa using h

/-- The two parts of a row, before and from the divider. -/
theorem row_bytes (key : List Byte) (pad : Nat) (value : List Byte) (pad' : Nat) :
    (TabLine.row key pad value pad').bytes =
      (PIPE :: (SPACE :: key ++ List.replicate pad SPACE)) ++
        SPACE :: PIPE :: SPACE :: (value ++ (List.replicate pad' SPACE ++ [SPACE, PIPE])) := by
  simp [TabLine.bytes, B_pipe_space, B_divider, B_space_pipe]

/-- One round of the loop of `parseBatch` on a well-formed row. -/
theorem parseLine_row [Lowering] {d : Nat} {key value : List Byte} {pad pad' : Nat}
    (hwf : (TabLine.row key pad value pad').WellFormed d) (d0 : Int) (m : MyqSample)
    (hd0 : d0 = 0 ∨ d0 = d) :
    parseLine TABULAR ⟨d0, m⟩ (TabLine.row key pad value pad').bytes =
      some ⟨d, m.set (ToLower key) value⟩ := by
  obtain ⟨hne, hsp, hpi, _, hd, _, hv1, hv2⟩ := hwf
  have hrow := row_bytes key pad value pad'
  generalize (TabLine.row key pad value pad').bytes = line at hrow
  have hpre : HasPrefix line (B "|") = true := by rw [hrow, B_pipe]; simp [HasPrefix]
  have halen : (PIPE :: (SPACE :: key ++ List.replicate pad SPACE)).length = d := by
    simp; omega
  have hidx : Index line (B " | ") = (d : Int) := by
    rw [hrow, ← halen]
    refine Index_divider ?_
    simp only [List.cons_append, List.mem_cons, List.mem_append, List.mem_replicate, not_or]
    exact ⟨by decide, hpi, fun h => absurd h.2 (by decide)⟩
  have hlen : d ≤ line.length := by rw [hrow, List.length_append, halen]; omega
  have hdpos : (d : Int) ≠ 0 := by omega
  have htake : line.take d = PIPE :: (SPACE :: key ++ List.replicate pad SPACE) := by
    rw [hrow, ← halen, List.take_left]
  have hdrop : line.drop d
      = SPACE :: PIPE :: SPACE :: (value ++ (List.replicate pad' SPACE ++ [SPACE, PIPE])) := by
    rw [hrow, ← halen, List.drop_left]
  have hcut := not_inCutset_of_mem hsp hpi
  have hk : Trim (line.take d) = key := by
    rw [htake]
    have : PIPE :: (SPACE :: key ++ List.replicate pad SPACE)
        = [PIPE, SPACE] ++ key ++ List.replicate pad SPACE := by simp
    rw [this]
    refine Trim_sandwich (by decide) (fun b hb => ?_) (fun b hb => ?_) (fun b hb => ?_)
    · rw [List.eq_of_mem_replicate hb]; decide
    · exact hcut b (List.mem_of_mem_head? hb)
    · exact hcut b (List.mem_of_getLast?_eq_some hb)
  have hv : Trim (line.drop d) = value := by
    rw [hdrop]
    have : SPACE :: PIPE :: SPACE :: (value ++ (List.replicate pad' SPACE ++ [SPACE, PIPE]))
        = [SPACE, PIPE, SPACE] ++ value ++ (List.replicate pad' SPACE ++ [SPACE, PIPE]) := by simp
    rw [this]
    refine Trim_sandwich (by decide) (fun b hb => ?_) (any_head_false hv1) (any_getLast_false hv2)
    rcases List.mem_append.mp hb with h | h
    · rw [List.eq_of_mem_replicate h]; decide
    · simp only [List.mem_cons, List.mem_singleton, List.not_mem_nil, or_false] at h
      rcases h with rfl | rfl <;> decide
  have hs1 : slice line 0 d = some (line.take d) := by
    have := slice_take line d hlen
    simpa using this
  have hs2 : slice line d line.length = some (line.drop d) := slice_drop line d hlen
  unfold parseLine
  simp only [hpre, Bool.not_true, Bool.false_eq_true, if_false]
  rcases hd0 with h | h
  · subst h
    simp only [if_true, hidx, hs1, hs2, hk, hv]
  · subst h
    simp only [if_neg hdpos]
    rw [if_neg (by omega)]
    simp only [hs1, hs2, hk, hv]

theorem HasPrefix_dropCR {text : List Byte} (h : HasPrefix text (B "|") = false) :
    HasPrefix (dropCR text) (B "|") = false := by
  unfold dropCR
  split
  · rw [B_pipe] at h ⊢
    cases text with
    | nil => rfl
    | cons b text =>
      cases text with
      | nil => rfl
      | cons c text =>
        simp only [HasPrefix, List.dropLast, List.isPrefixOf] at h ⊢
        exact h
  · exact h

theorem dropCR_row {key value : List Byte} {pad pad' : Nat} :
    dropCR (TabLine.row key pad value pad').bytes = (TabLine.row key pad value pad').bytes := by
  apply dropCR_of_getLast
  rw [TabLine.bytes, B_space_pipe, List.getLast?_append]
  simp [PIPE, CR]

theorem NL_not_mem_bytes {d : Nat} {l : TabLine} (hwf : l.WellFormed d) : NL ∉ l.bytes := by
  cases l with
  | border text => exact hwf.2
  | row key pad value pad' =>
    obtain ⟨_, _, _, hk, _, hv, _, _⟩ := hwf
    rw [row_bytes]
    simp only [List.cons_append, List.mem_cons, List.mem_append, List.mem_replicate, not_or,
      List.mem_singleton, List.not_mem_nil, or_false]
    refine ⟨by decide, by decide, ⟨hk, fun h => absurd h.2 (by decide)⟩, by decide, by decide,
      by decide, hv, fun h => absurd h.2 (by decide), by decide, by decide⟩

/-- The loop of `parseBatch` in layout TABULAR over well-formed lines. -/
theorem parseLines_tabular [Lowering] (d : Nat) : ∀ (lines : List TabLine) (d0 : Int) (m : MyqSample),
    (∀ l ∈ lines, l.WellFormed d) → (d0 = 0 ∨ d0 = d) →
    ∃ d1 : Int, parseLines TABULAR ⟨d0, m⟩ (lines.map (fun l => dropCR l.bytes)) =
      some ⟨d1, (lowerKeys (tabRows lines)).foldl (fun acc kv => MyqSample.set acc kv.1 kv.2) m⟩ := by
  intro lines
  induction lines with
  | nil => intro d0 m _ _; exact ⟨d0, rfl⟩
  | cons l lines ih =>
    intro d0 m hwf hd0
    have hl := hwf l (by simp)
    have hrest : ∀ l' ∈ lines, l'.WellFormed d := fun l' hl' => hwf l' (by simp [hl'])
    cases l with
    | border text =>
      obtain ⟨d1, h1⟩ := ih d0 m hrest hd0
      refine ⟨d1, ?_⟩
      have hb : parseLine TABULAR ⟨d0, m⟩ (dropCR text) = some ⟨d0, m⟩ := by
        simp [parseLine, HasPrefix_dropCR hl.1]
      simp only [List.map_cons, parseLines]
      rw [show (TabLine.border text).bytes = text from rfl, hb]
      simp only []
      rw [h1]
      simp [tabRows, TabLine.kv?]
    | row key pad value pad' =>
      obtain ⟨d1, h1⟩ := ih d (m.set (ToLower key) value) hrest (Or.inr rfl)
      refine ⟨d1, ?_⟩
      simp only [List.map_cons, parseLines]
      rw [dropCR_row, parseLine_row hl d0 m hd0]
      simp only []
      rw [h1]
      simp [tabRows, TabLine.kv?, lowerKeys]

/-- The Sample that `parseBatch` builds from a well-formed TABULAR record. -/
theorem buildSample_tabular [Lowering] (lines : List TabLine) (d : Nat)
    (hwf : ∀ l ∈ lines, l.WellFormed d)
    (hdistinct : ((tabRows lines).map (fun kv => ToLower kv.1)).Nodup) :
    buildSample TABULAR (joinLines (lines.map TabLine.bytes)) = some (lowerKeys (tabRows lines)) := by
  have hnl : ∀ l ∈ lines.map TabLine.bytes, NL ∉ l := by
    intro l hl
    obtain ⟨tl, htl, rfl⟩ := List.mem_map.mp hl
    exact NL_not_mem_bytes (hwf tl htl)
  obtain ⟨d1, h1⟩ := parseLines_tabular d lines 0 [] hwf (Or.inl rfl)
  unfold buildSample
  rw [ScanLines_joinLines _ hnl, List.map_map]
  have : (dropCR ∘ TabLine.bytes) = fun l => dropCR l.bytes := rfl
  rw [this, h1, foldl_set_distinct (lowerKeys (tabRows lines)) []
      (by simpa [lowerKeys, Function.comp_def] using hdistinct)]
  simp

theorem parseBatch_tabular [Lowering] (lines : List TabLine) (d : Nat)
    (hwf : ∀ l ∈ lines, l.WellFormed d) (hN : tabRows lines ≠ [])
    (hdistinct : ((tabRows lines).map (fun kv => ToLower kv.1)).Nodup) :
    parseBatch (joinLines (lines.map TabLine.bytes)) TABULAR
      = some [lowerKeys (tabRows lines)] := by
  unfold parseBatch
  rw [buildSample_tabular lines d hwf hdistinct]
  have : 0 < (tabRows lines).length := List.length_pos.mpr hN
  simp [lowerKeys, MyqSample.Length, this]

/-! ## The scanner loop over a stream that arrives in chunks -/

/-- Once the input is consumed, the loop reads to the end of the stream and
stops. -/
theorem scanLoop_drain [Lowering] {F : Type} (ops : Float64Ops F) (interval : Int) (st : SplitState F)
    (hchecked : st.typechecked = true) (hmark : st.recordmatch ≠ []) (out : List MyqSample) :
    ∀ (pending : List (List Byte)) (fuel : Nat), pending.flatten = [] →
      pending.length + 2 ≤ fuel →
      scanLoop ops interval fuel st [] pending false out = some ⟨out, st⟩ := by
  intro pending
  induction pending with
  | nil =>
    intro fuel _ hf
    obtain ⟨f, rfl⟩ : ∃ f, fuel = f + 1 + 1 := ⟨fuel - 2, by simp at hf; omega⟩
    rw [scanLoop_read]
    simp only [readMore]
    exact scanLoop_done ops interval f st st [] [] out 0
      (splitFunc_nil_eof ops interval st hchecked hmark) (by simp)
  | cons c more ih =>
    intro fuel hflat hf
    obtain ⟨f, rfl⟩ : ∃ f, fuel = f + 1 := ⟨fuel - 1, by simp at hf; omega⟩
    have hc : c = [] := by
      simp only [List.flatten_cons, List.append_eq_nil] at hflat; exact hflat.1
    have hmore : more.flatten = [] := by
      simp only [List.flatten_cons, List.append_eq_nil] at hflat; exact hflat.2
    rw [scanLoop_read]
    simp only [readMore, hc, List.append_nil]
    exact ih f hmore (by simp at hf; omega)

/-- On a part of the marker line that has no line feed yet, the split callback
asks for more input. -/
theorem splitFunc_marker_line_part {F : Type} (ops : Float64Ops F) (interval : Int)
    (st : SplitState F) (hchecked : st.typechecked = true)
    (l buf : List Byte) (hpre : st.recordmatch <+: l) (hnl : NL ∉ l) (hbuf : buf <+: l) :
    splitFunc ops interval st buf false = some (st, ((0 : Nat) : Int), none) := by
  have hnlb : NL ∉ buf := fun h => hnl (hbuf.subset h)
  rcases List.prefix_or_prefix_of_prefix hpre hbuf with h | h
  · rw [splitFunc_marker_first ops interval st buf false
      (by rw [typecheck_of_checked st buf hchecked]; exact h),
      typecheck_of_checked st buf hchecked, IndexByte_of_not_mem hnlb]
    rfl
  · by_cases hfull : st.recordmatch <+: buf
    · rw [splitFunc_marker_first ops interval st buf false
        (by rw [typecheck_of_checked st buf hchecked]; exact hfull),
        typecheck_of_checked st buf hchecked, IndexByte_of_not_mem hnlb]
      rfl
    · have hno : ¬ st.recordmatch <:+: buf := by
        intro hin
        have h1 := hin.length_le
        have h2 := h.length_le
        have heq : buf = st.recordmatch := h.eq_of_length (by omega)
        exact hfull (by rw [heq])
      rw [splitFunc_no_marker ops interval st buf false
        (by rw [typecheck_of_checked st buf hchecked]; exact hno),
        typecheck_of_checked st buf hchecked]
      simp

/-- The loop over a marker line and nothing after it: the line is skipped and
the loop stops at the end of the stream, whatever the chunks. -/
theorem scanLoop_marker_line [Lowering] {F : Type} (ops : Float64Ops F) (interval : Int)
    (st : SplitState F) (hchecked : st.typechecked = true) (hmark : st.recordmatch ≠ [])
    (l : List Byte) (hpre : st.recordmatch <+: l) (hnl : NL ∉ l) (out : List MyqSample) :
    ∀ (pending : List (List Byte)) (buf : List Byte) (fuel : Nat),
      buf ++ pending.flatten = l ++ [NL] → pending.length + 3 ≤ fuel →
      scanLoop ops interval fuel st buf pending false out = some ⟨out, st⟩ := by
  have hfullsplit : splitFunc ops interval st (l ++ [NL]) false
      = some (st, (((l ++ [NL]).length : Nat) : Int), none) := by
    rw [splitFunc_marker_first ops interval st _ false
      (by rw [typecheck_of_checked st _ hchecked]; exact hpre.trans (List.prefix_append _ _)),
      typecheck_of_checked st _ hchecked, IndexByte_append hnl]
    simp
  intro pending
  induction pending with
  | nil =>
    intro buf fuel hbuf hf
    obtain ⟨f, rfl⟩ : ∃ f, fuel = f + 1 + 1 := ⟨fuel - 2, by simp at hf; omega⟩
    simp only [List.flatten_nil, List.append_nil] at hbuf
    subst hbuf
    rw [scanLoop_no_token ops interval (f + 1) st st _ [] out _ (by simp) hfullsplit (le_refl _)]
    simp only [readMore, List.drop_length]
    exact scanLoop_done ops interval f st st [] [] out 0
      (splitFunc_nil_eof ops interval st hchecked hmark) (by simp)
  | cons c more ih =>
    intro buf fuel hbuf hf
    obtain ⟨f, rfl⟩ : ∃ f, fuel = f + 1 := ⟨fuel - 1, by simp at hf; omega⟩
    have hf' : more.length + 3 ≤ f := by simp at hf; omega
    by_cases hempty : buf = []
    · subst hempty
      rw [scanLoop_read]
      simp only [readMore, List.nil_append]
      exact ih c f (by simpa using hbuf) hf'
    · rcases List.append_eq_append_iff.mp hbuf with ⟨a, ha, _⟩ | ⟨c', hc', hrest⟩
      · -- the buffer is a part of the line before its line feed
        have hpart : buf <+: l := ⟨a, ha.symm⟩
        rw [scanLoop_no_token ops interval f st st buf (c :: more) out 0 hempty
          (splitFunc_marker_line_part ops interval st hchecked l buf hpre hnl hpart)
          (Nat.zero_le _)]
        simp only [readMore, List.drop_zero]
        exact ih (buf ++ c) f (by simpa using hbuf) hf'
      · cases c' with
        | nil =>
          have hpart : buf <+: l := by rw [hc']; simp
          rw [scanLoop_no_token ops interval f st st buf (c :: more) out 0 hempty
            (splitFunc_marker_line_part ops interval st hchecked l buf hpre hnl hpart)
            (Nat.zero_le _)]
          simp only [readMore, List.drop_zero]
          exact ih (buf ++ c) f (by simpa using hbuf) hf'
        | cons x c' =>
          -- the buffer holds the whole line
          have hx : x = NL ∧ c' = [] ∧ (c :: more).flatten = [] := by
            have := hrest
            simp only [List.cons_append, List.cons.injEq] at this
            obtain ⟨h1, h2⟩ := this
            have h3 := List.append_eq_nil.mp h2.symm
            exact ⟨h1.symm, h3.1, h3.2⟩
          obtain ⟨hx1, hx2, hx3⟩ := hx
          subst hx1; subst hx2
          have hc : c = [] := by
            simp only [List.flatten_cons, List.append_eq_nil] at hx3; exact hx3.1
          have hmore : more.flatten = [] := by
            simp only [List.flatten_cons, List.append_eq_nil] at hx3; exact hx3.2
          subst hc'
          rw [scanLoop_no_token ops interval f st st _ (c :: more) out _ (by simp) hfullsplit
            (le_refl _)]
          simp only [readMore, List.drop_length, hc, List.append_nil]
          exact scanLoop_drain ops interval st hchecked hmark out more f hmore (by omega)

/-- A marker that first occurs after the record does not occur in a buffer that
ends before the end of its first occurrence. -/
theorem no_marker_in_short_buffer {sep buf pend : List Byte} {b : Nat}
    (hfirst : ∀ m, m < b → ¬ sep <+: (buf ++ pend).drop m)
    (hlen : buf.length < b + sep.length) : ¬ sep <:+: buf := by
  rintro ⟨s, t, h⟩
  have hl : s.length + sep.length + t.length = buf.length := by
    rw [← h]; simp; omega
  refine hfirst s.length (by omega) ?_
  rw [← h]
  have : s ++ sep ++ t ++ pend = s ++ (sep ++ (t ++ pend)) := by simp
  rw [this, List.drop_left]
  exact List.prefix_append _ _

theorem prefix_of_append_singleton {c pend l : List Byte} {z : Byte}
    (h : l ++ [z] = c ++ pend) (hp : pend ≠ []) : c <+: l := by
  rcases List.append_eq_append_iff.mp h with ⟨a, ha, hz⟩ | ⟨x, hx, _⟩
  · cases a with
    | nil => rw [ha]; simp
    | cons y a =>
      simp only [List.cons_append, List.cons.injEq] at hz
      exact absurd (List.append_eq_nil.mp hz.2.symm).2 hp
  · exact ⟨x, hx.symm⟩

theorem firstAt_in_buffer {sep body c pend : List Byte}
    (hfirst : ∀ m, m < body.length → ¬ sep <+: (body ++ c ++ pend).drop m)
    (hc : sep <+: c) : FirstAt sep (body ++ c) body.length := by
  refine ⟨by rw [List.drop_left]; exact hc, by simp, fun m hm h => hfirst m hm ?_⟩
  rw [List.drop_append_of_le_length (by simp; omega)]
  exact h.trans (List.prefix_append _ _)

theorem typecheck_batch {F : Type} (END_STRING : List Byte) (zero : F) (st : SplitState F)
    (buf : List Byte)
    (hst : st = ⟨BATCH, false, END_STRING, zero⟩ ∨ st = ⟨BATCH, true, END_STRING, zero⟩)
    (hplus : HasPrefix buf (B "+") = false) (hpipe : HasPrefix buf (B "|") = false) :
    typecheck st buf = ⟨BATCH, true, END_STRING, zero⟩ := by
  rcases hst with h | h <;> subst h <;> simp [typecheck, hplus, hpipe]

theorem HasPrefix_byte_of_append {buf pend body rest : List Byte} (c : Byte)
    (h : buf ++ pend = body ++ rest) (hbuf : buf ≠ []) (hbody : body ≠ []) :
    HasPrefix buf [c] = HasPrefix body [c] := by
  cases buf with
  | nil => exact absurd rfl hbuf
  | cons x buf =>
    cases body with
    | nil => exact absurd rfl hbody
    | cons y body =>
      have hxy : x = y := by
        simp only [List.cons_append, List.cons.injEq] at h; exact h.1
      subst hxy
      simp [HasPrefix, List.isPrefixOf]

/-- The loop over one BATCH record and its marker line, with filtering
disabled: the record is parsed once, whatever the chunks. -/
theorem scanLoop_batch_record [Lowering] {F : Type} (ops : Float64Ops F) (interval : Int)
    (hchk : check_intervals interval = false)
    (END_STRING body l : List Byte) (samples : List MyqSample)
    (hbody : body ≠ [])
    (hfirst : ∀ m, m < body.length → ¬ END_STRING <+: (body ++ (l ++ [NL])).drop m)
    (hpre : END_STRING <+: l) (hne : END_STRING ≠ []) (hnl : NL ∉ l)
    (hplus : HasPrefix body (B "+") = false) (hpipe : HasPrefix body (B "|") = false)
    (hparse : parseBatch body BATCH = some samples) :
    ∀ (pending : List (List Byte)) (buf : List Byte) (st : SplitState F) (fuel : Nat),
      buf ++ pending.flatten = body ++ (l ++ [NL]) →
      (st = ⟨BATCH, false, END_STRING, ops.zero⟩ ∨ st = ⟨BATCH, true, END_STRING, ops.zero⟩) →
      pending.length + 4 ≤ fuel →
      scanLoop ops interval fuel st buf pending false []
        = some ⟨samples, ⟨BATCH, true, END_STRING, ops.zero⟩⟩ := by
  have hB1 : B "+" = [43] := by decide
  have hB2 : B "|" = [124] := by decide
  -- what the split callback does on a buffer that is the beginning of the stream
  have hshort : ∀ (buf pend : List Byte) (st : SplitState F),
      buf ++ pend = body ++ (l ++ [NL]) → buf ≠ [] →
      (st = ⟨BATCH, false, END_STRING, ops.zero⟩ ∨ st = ⟨BATCH, true, END_STRING, ops.zero⟩) →
      buf.length < body.length + END_STRING.length →
      splitFunc ops interval st buf false
        = some (⟨BATCH, true, END_STRING, ops.zero⟩, ((0 : Nat) : Int), none) := by
    intro buf pend st hdata hbuf hst hlen
    have htc := typecheck_batch END_STRING ops.zero st buf hst
      (by rw [hB1, HasPrefix_byte_of_append 43 hdata hbuf hbody, ← hB1]; exact hplus)
      (by rw [hB2, HasPrefix_byte_of_append 124 hdata hbuf hbody, ← hB2]; exact hpipe)
    have hno : ¬ END_STRING <:+: buf :=
      no_marker_in_short_buffer (b := body.length) (by rw [hdata]; exact hfirst) hlen
    rw [splitFunc_no_marker ops interval st buf false (by rw [htc]; exact hno), htc]
    simp
  have hlong : ∀ (c pend : List Byte) (st : SplitState F),
      c ++ pend = l ++ [NL] → END_STRING <+: c →
      (st = ⟨BATCH, false, END_STRING, ops.zero⟩ ∨ st = ⟨BATCH, true, END_STRING, ops.zero⟩) →
      splitFunc ops interval st (body ++ c) false
        = some (⟨BATCH, true, END_STRING, ops.zero⟩,
            (body.length : Int) + IndexByte c NL + 1, some body) := by
    intro c pend st hdata hc hst
    have hdata' : (body ++ c) ++ pend = body ++ (l ++ [NL]) := by rw [List.append_assoc, hdata]
    have htc := typecheck_batch END_STRING ops.zero st (body ++ c) hst
      (by rw [hB1, HasPrefix_byte_of_append 43 hdata' (by simp [hbody]) hbody, ← hB1]; exact hplus)
      (by rw [hB2, HasPrefix_byte_of_append 124 hdata' (by simp [hbody]) hbody, ← hB2]
          exact hpipe)
    have hF : FirstAt END_STRING (body ++ c) body.length :=
      @firstAt_in_buffer END_STRING body c pend (by rw [hdata']; exact hfirst) hc
    rw [splitFunc_found ops interval st (body ++ c) false body.length (by rw [htc]; exact hF)
      (List.length_pos.mpr hbody), hchk, htc]
    simp
  intro pending
  induction pending with
  | nil =>
    intro buf st fuel hbuf hst hf
    obtain ⟨f, rfl⟩ : ∃ f, fuel = f + 1 := ⟨fuel - 1, by simp at hf; omega⟩
    simp only [List.flatten_nil, List.append_nil] at hbuf
    subst hbuf
    have hsp := hlong (l ++ [NL]) [] st (by simp) (hpre.trans (List.prefix_append _ _)) hst
    rw [IndexByte_append hnl] at hsp
    have hadv : (body.length : Int) + (l.length : Int) + 1
        = (((body ++ (l ++ [NL])).length : Nat) : Int) := by simp; omega
    rw [hadv] at hsp
    rw [scanLoop_token ops interval f st _ _ body [] false [] samples _ (Or.inl (by simp [hbody]))
      hsp (le_refl _) hparse]
    simp only [List.drop_length, List.nil_append]
    exact scanLoop_drain ops interval _ rfl hne samples [] f rfl (by simp at hf ⊢; omega)
  | cons c more ih =>
    intro buf st fuel hbuf hst hf
    obtain ⟨f, rfl⟩ : ∃ f, fuel = f + 1 := ⟨fuel - 1, by simp at hf; omega⟩
    have hf' : more.length + 4 ≤ f := by simp at hf; omega
    by_cases hempty : buf = []
    · subst hempty
      rw [scanLoop_read]
      simp only [readMore, List.nil_append]
      exact ih c st f (by simpa using hbuf) hst hf'
    · by_cases hlen : buf.length < body.length + END_STRING.length
      · rw [scanLoop_no_token ops interval f st _ buf (c :: more) [] 0 hempty
          (hshort buf _ st hbuf hempty hst hlen) (Nat.zero_le _)]
        simp only [readMore, List.drop_zero]
        exact ih (buf ++ c) _ f (by simpa using hbuf) (Or.inr rfl) hf'
      · have hEpos : 0 < END_STRING.length := List.length_pos.mpr hne
        rcases List.append_eq_append_iff.mp hbuf with ⟨a, ha, _⟩ | ⟨c', hc', hrest⟩
        · have := congrArg List.length ha
          simp at this; omega
        · subst hc'
          have hEc : END_STRING <+: c' := by
            have h1 : END_STRING <+: c' ++ (c :: more).flatten := by
              rw [← hrest]; exact hpre.trans (List.prefix_append _ _)
            exact List.prefix_of_prefix_length_le h1 (List.prefix_append _ _)
              (by simp at hlen; omega)
          have hsp := hlong c' _ st hrest.symm hEc hst
          by_cases hp0 : (c :: more).flatten = []
          · -- the buffer holds the whole stream
            have hc' : c' = l ++ [NL] := by rw [hrest, hp0]; simp
            rw [hc', IndexByte_append hnl] at hsp
            have hadv : (body.length : Int) + (l.length : Int) + 1
                = (((body ++ (l ++ [NL])).length : Nat) : Int) := by simp; omega
            rw [hadv] at hsp
            rw [hc', scanLoop_token ops interval f st _ _ body (c :: more) false [] samples _
              (Or.inl (by simp [hbody])) hsp (le_refl _) hparse]
            simp only [List.drop_length, List.nil_append]
            exact scanLoop_drain ops interval _ rfl hne samples (c :: more) f hp0
              (by simp at hf ⊢; omega)
          · -- the buffer ends inside the marker line
            have hpart : c' <+: l := prefix_of_append_singleton hrest hp0
            have hnlc : NL ∉ c' := fun h => hnl (hpart.subset h)
            rw [IndexByte_of_not_mem hnlc] at hsp
            have hadv : (body.length : Int) + (-1) + 1 = ((body.length : Nat) : Int) := by omega
            rw [hadv] at hsp
            rw [scanLoop_token ops interval f st _ _ body (c :: more) false [] samples _
              (Or.inl (by simp [hbody])) hsp (by simp) hparse]
            simp only [List.drop_left, List.nil_append]
            exact scanLoop_marker_line ops interval _ rfl hne l hpre hnl samples (c :: more) c' f
              hrest.symm (by simp at hf ⊢; omega)

theorem typecheck_idem {F : Type} (st : SplitState F) (data : List Byte) :
    typecheck (typecheck st data) data = typecheck st data := by
  unfold typecheck
  cases h : st.typechecked <;> simp [h]
  split <;> simp

theorem splitFunc_typecheck {F : Type} (ops : Float64Ops F) (interval : Int) (st : SplitState F)
    (data : List Byte) (atEOF : Bool) :
    splitFunc ops interval st data atEOF = splitFunc ops interval (typecheck st data) data atEOF := by
  unfold splitFunc
  rw [typecheck_idem]

theorem typecheck_tabular {F : Type} (END_STRING : List Byte) (zero : F) (st : SplitState F)
    (buf : List Byte)
    (hst : st = ⟨BATCH, false, END_STRING, zero⟩ ∨ st = ⟨TABULAR, true, B "| Variable_name", zero⟩)
    (hpipe : HasPrefix buf (B "|") = true) :
    typecheck st buf = ⟨TABULAR, true, B "| Variable_name", zero⟩ := by
  rcases hst with h | h <;> subst h <;> simp [typecheck, hpipe]

/-- At the end of the stream, what is left without a marker is the last record. -/
theorem scanLoop_last_record_eof [Lowering] {F : Type} (ops : Float64Ops F) (interval : Int)
    (st : SplitState F) (hchecked : st.typechecked = true) (hmark : st.recordmatch ≠ [])
    (rest : List Byte) (hrest : rest ≠ []) (hno : ¬ st.recordmatch <:+: rest)
    (samples : List MyqSample) (hparse : parseBatch rest st.outputtype = some samples)
    (out : List MyqSample) (fuel : Nat) (hf : 2 ≤ fuel) :
    scanLoop ops interval fuel st rest [] true out = some ⟨out ++ samples, st⟩ := by
  obtain ⟨f, rfl⟩ : ∃ f, fuel = f + 1 + 1 := ⟨fuel - 2, by omega⟩
  have hsp : splitFunc ops interval st rest true
      = some (st, ((rest.length : Nat) : Int), some rest) := by
    have hpos : 0 < rest.length := List.length_pos.mpr hrest
    rw [splitFunc_no_marker ops interval st rest true
      (by rw [typecheck_of_checked st rest hchecked]; exact hno),
      typecheck_of_checked st rest hchecked]
    simp [hpos]
  rw [scanLoop_token ops interval (f + 1) st st rest rest [] true out samples rest.length
    (Or.inr rfl) hsp (le_refl _) hparse]
  simp only [List.drop_length]
  exact scanLoop_done ops interval f st st [] [] _ 0
    (splitFunc_nil_eof ops interval st hchecked hmark) (by simp)

/-- The loop over a last record without marker, whatever the chunks. -/
theorem scanLoop_last_record [Lowering] {F : Type} (ops : Float64Ops F) (interval : Int)
    (st : SplitState F) (hchecked : st.typechecked = true) (hmark : st.recordmatch ≠ [])
    (rest : List Byte) (hrest : rest ≠ []) (hno : ¬ st.recordmatch <:+: rest)
    (samples : List MyqSample) (hparse : parseBatch rest st.outputtype = some samples)
    (out : List MyqSample) :
    ∀ (pending : List (List Byte)) (buf : List Byte) (fuel : Nat),
      buf ++ pending.flatten = rest → pending.length + 3 ≤ fuel →
      scanLoop ops interval fuel st buf pending false out = some ⟨out ++ samples, st⟩ := by
  have hwait : ∀ (buf pend : List Byte), buf ++ pend = rest →
      splitFunc ops interval st buf false = some (st, ((0 : Nat) : Int), none) := by
    intro buf pend hdata
    have hnob : ¬ st.recordmatch <:+: buf := fun h =>
      hno (h.trans (by rw [← hdata]; exact (List.prefix_append _ _).isInfix))
    rw [splitFunc_no_marker ops interval st buf false
      (by rw [typecheck_of_checked st buf hchecked]; exact hnob),
      typecheck_of_checked st buf hchecked]
    simp
  intro pending
  induction pending with
  | nil =>
    intro buf fuel hbuf hf
    obtain ⟨f, rfl⟩ : ∃ f, fuel = f + 1 := ⟨fuel - 1, by simp at hf; omega⟩
    simp only [List.flatten_nil, List.append_nil] at hbuf
    subst hbuf
    rw [scanLoop_no_token ops interval f st st buf [] out 0 hrest (hwait buf [] (by simp))
      (Nat.zero_le _)]
    simp only [readMore, List.drop_zero]
    exact scanLoop_last_record_eof ops interval st hchecked hmark buf hrest hno samples hparse
      out f (by simp at hf; omega)
  | cons c more ih =>
    intro buf fuel hbuf hf
    obtain ⟨f, rfl⟩ : ∃ f, fuel = f + 1 := ⟨fuel - 1, by simp at hf; omega⟩
    have hf' : more.length + 3 ≤ f := by simp at hf; omega
    by_cases hempty : buf = []
    · subst hempty
      rw [scanLoop_read]
      simp only [readMore, List.nil_append]
      exact ih c f (by simpa using hbuf) hf'
    · rw [scanLoop_no_token ops interval f st st buf (c :: more) out 0 hempty
        (hwait buf _ hbuf) (Nat.zero_le _)]
      simp only [readMore, List.drop_zero]
      exact ih (buf ++ c) f (by simpa using hbuf) hf'

/-- The loop over a TABULAR stream of a header line and one record: the header
line is skipped and the record is parsed once, whatever the chunks. -/
theorem scanLoop_header_record [Lowering] {F : Type} (ops : Float64Ops F) (interval : Int)
    (END_STRING header rest : List Byte) (samples : List MyqSample)
    (hpre : B "| Variable_name" <+: header) (hnl : NL ∉ header)
    (hrest : rest ≠ []) (hno : ¬ B "| Variable_name" <:+: rest)
    (hparse : parseBatch rest TABULAR = some samples) :
    ∀ (pending : List (List Byte)) (buf : List Byte) (st : SplitState F) (fuel : Nat),
      buf ++ pending.flatten = (header ++ [NL]) ++ rest →
      (st = ⟨BATCH, false, END_STRING, ops.zero⟩
        ∨ st = ⟨TABULAR, true, B "| Variable_name", ops.zero⟩) →
      pending.length + 4 ≤ fuel →
      scanLoop ops interval fuel st buf pending false []
        = some ⟨samples, ⟨TABULAR, true, B "| Variable_name", ops.zero⟩⟩ := by
  have hB2 : B "|" = [124] := by decide
  have hmk : B "| Variable_name" ≠ [] := by decide
  have hheader : header ≠ [] := by
    intro h; rw [h] at hpre; exact hmk (List.prefix_nil.mp hpre)
  have hhp : HasPrefix header (B "|") = true := by
    obtain ⟨t, ht⟩ := hpre
    have : B "| Variable_name" = PIPE :: B " Variable_name" := by decide
    rw [← ht, this, B_pipe]; simp [HasPrefix]
  have htc : ∀ (buf pend : List Byte) (st : SplitState F),
      buf ++ pend = (header ++ [NL]) ++ rest → buf ≠ [] →
      (st = ⟨BATCH, false, END_STRING, ops.zero⟩
        ∨ st = ⟨TABULAR, true, B "| Variable_name", ops.zero⟩) →
      typecheck st buf = ⟨TABULAR, true, B "| Variable_name", ops.zero⟩ := by
    intro buf pend st hdata hbuf hst
    refine typecheck_tabular END_STRING ops.zero st buf hst ?_
    rw [hB2, HasPrefix_byte_of_append 124 (by rw [hdata, List.append_assoc]) hbuf hheader,
      ← hB2]
    exact hhp
  have hpart : ∀ (buf pend : List Byte) (st : SplitState F),
      buf ++ pend = (header ++ [NL]) ++ rest → buf ≠ [] → buf <+: header →
      (st = ⟨BATCH, false, END_STRING, ops.zero⟩
        ∨ st = ⟨TABULAR, true, B "| Variable_name", ops.zero⟩) →
      splitFunc ops interval st buf false
        = some (⟨TABULAR, true, B "| Variable_name", ops.zero⟩, ((0 : Nat) : Int), none) := by
    intro buf pend st hdata hbuf hp hst
    rw [splitFunc_typecheck, htc buf pend st hdata hbuf hst]
    exact splitFunc_marker_line_part ops interval _ rfl header buf hpre hnl hp
  have hfull : ∀ (r1 pend : List Byte) (st : SplitState F),
      r1 ++ pend = rest →
      (st = ⟨BATCH, false, END_STRING, ops.zero⟩
        ∨ st = ⟨TABULAR, true, B "| Variable_name", ops.zero⟩) →
      splitFunc ops interval st ((header ++ [NL]) ++ r1) false
        = some (⟨TABULAR, true, B "| Variable_name", ops.zero⟩,
            (((header ++ [NL]).length : Nat) : Int), none) := by
    intro r1 pend st hdata hst
    have h1 := htc ((header ++ [NL]) ++ r1) pend st (by rw [List.append_assoc, hdata]) (by simp) hst
    have hidx : IndexByte ((header ++ [NL]) ++ r1) NL = (header.length : Int) := by
      have : (header ++ [NL]) ++ r1 = header ++ NL :: r1 := by simp
      rw [this]; exact IndexByte_append hnl
    rw [splitFunc_marker_first ops interval st _ false
      (by rw [h1, List.append_assoc]; exact hpre.trans (List.prefix_append _ _)), h1, hidx]
    simp
  intro pending
  induction pending with
  | nil =>
    intro buf st fuel hbuf hst hf
    obtain ⟨f, rfl⟩ : ∃ f, fuel = f + 1 := ⟨fuel - 1, by simp at hf; omega⟩
    simp only [List.flatten_nil, List.append_nil] at hbuf
    subst hbuf
    rw [scanLoop_no_token ops interval f st _ _ [] [] _ (by simp) (hfull rest [] st (by simp) hst)
      (by simp)]
    simp only [readMore, List.drop_left]
    have := scanLoop_last_record_eof ops interval
      (⟨TABULAR, true, B "| Variable_name", ops.zero⟩ : SplitState F) rfl hmk rest hrest hno
      samples hparse [] f (by simp at hf; omega)
    simpa using this
  | cons c more ih =>
    intro buf st fuel hbuf hst hf
    obtain ⟨f, rfl⟩ : ∃ f, fuel = f + 1 := ⟨fuel - 1, by simp at hf; omega⟩
    have hf' : more.length + 4 ≤ f := by simp at hf; omega
    by_cases hempty : buf = []
    · subst hempty
      rw [scanLoop_read]
      simp only [readMore, List.nil_append]
      exact ih c st f (by simpa using hbuf) hst hf'
    · rcases List.append_eq_append_iff.mp hbuf with ⟨a, ha, hpend⟩ | ⟨r1, hr1, hR⟩
      · cases a with
        | nil =>
          -- the buffer ends with the line feed of the header line
          simp only [List.append_nil] at ha
          simp only [List.nil_append] at hpend
          have hsp := hfull [] rest st (List.nil_append _) hst
          rw [List.append_nil, ha] at hsp
          rw [scanLoop_no_token ops interval f st _ buf (c :: more) [] _ hempty hsp
            (by rw [← ha])]
          rw [← ha, List.drop_length]
          simp only [readMore, List.nil_append]
          have := scanLoop_last_record ops interval
            (⟨TABULAR, true, B "| Variable_name", ops.zero⟩ : SplitState F) rfl hmk rest hrest hno
            samples hparse [] more c f (by simpa using hpend) (by omega)
          simpa using this
        | cons y a =>
          -- the buffer ends inside the header line
          have hp : buf <+: header := prefix_of_append_singleton ha (by simp)
          rw [scanLoop_no_token ops interval f st _ buf (c :: more) [] 0 hempty
            (hpart buf _ st hbuf hempty hp hst) (Nat.zero_le _)]
          simp only [readMore, List.drop_zero]
          exact ih (buf ++ c) _ f (by simpa using hbuf) (Or.inr rfl) hf'
      · -- the buffer reaches into the record
        subst hr1
        rw [scanLoop_no_token ops interval f st _ _ (c :: more) [] _ hempty
          (hfull r1 _ st hR.symm hst) (by simp)]
        simp only [readMore, List.drop_left]
        have := scanLoop_last_record ops interval
          (⟨TABULAR, true, B "| Variable_name", ops.zero⟩ : SplitState F) rfl hmk rest hrest hno
          samples hparse [] more (r1 ++ c) f (by rw [hR]; simp) (by omega)
        simpa using this

/-! ## The fields of a record and the Sample built from them -/

theorem parseLine_eq_lineField [Lowering] (outputtype : showoutputtype) (st : BatchState)
    (line : List Byte) :
    parseLine outputtype st line =
      match lineField outputtype st.divideridx line with
      | none => none
      | some (d, none) => some ⟨d, st.timesample⟩
      | some (d, some kv) => some ⟨d, st.timesample.set (ToLower kv.1) kv.2⟩ := by
  cases outputtype with
  | BATCH =>
    simp only [parseLine, lineField]
    split <;> rfl
  | TABULAR =>
    simp only [parseLine, lineField]
    by_cases hp : HasPrefix line (B "|") = true
    · simp only [hp, Bool.not_true, Bool.false_eq_true, if_false]
      generalize (if st.divideridx = 0 then some (Index line (B " | "))
        else if (line.length : Int) < st.divideridx then none else some st.divideridx) = d
      cases d with
      | none => rfl
      | some d' =>
        simp only []
        cases slice line 0 d' <;> cases slice line d' line.length <;> rfl
    · simp [hp]

theorem parseLines_eq_fields [Lowering] (outputtype : showoutputtype) :
    ∀ (lines : List (List Byte)) (d : Int) (m : MyqSample),
    (parseLines outputtype ⟨d, m⟩ lines).map BatchState.timesample =
      (fields outputtype d lines).map (fun fs => setAll m (lowerKeys fs)) := by
  intro lines
  induction lines with
  | nil => intro d m; rfl
  | cons line rest ih =>
    intro d m
    rw [parseLines, parseLine_eq_lineField, fields]
    cases h : lineField outputtype d line with
    | none => rfl
    | some r =>
      obtain ⟨d', f⟩ := r
      cases f with
      | none =>
        simp only []
        rw [ih d' m]
        cases fields outputtype d' rest <;> simp
      | some kv =>
        simp only []
        rw [ih d' _]
        cases fields outputtype d' rest <;> simp [setAll, lowerKeys]

theorem buildSample_eq_fields [Lowering] (outputtype : showoutputtype) (buffer : List Byte) :
    buildSample outputtype buffer =
      (fields outputtype 0 (ScanLines buffer)).map (fun fs => setAll [] (lowerKeys fs)) := by
  unfold buildSample
  exact parseLines_eq_fields outputtype _ 0 []

namespace MyqSample

theorem keys_set (k v : List Byte) : ∀ (m : MyqSample),
    (set m k v).map Prod.fst = if k ∈ m.map Prod.fst then m.map Prod.fst
      else m.map Prod.fst ++ [k] := by
  intro m
  induction m with
  | nil => simp [set]
  | cons e m ih =>
    obtain ⟨k', v'⟩ := e
    by_cases hk : k' = k
    · subst hk; simp [set]
    · have hk' : ¬ k = k' := fun h => hk h.symm
      simp only [set, if_neg hk, List.map_cons, ih, List.mem_cons, hk', false_or]
      split <;> simp

theorem nodup_set (k v : List Byte) (m : MyqSample) (h : (m.map Prod.fst).Nodup) :
    ((set m k v).map Prod.fst).Nodup := by
  rw [keys_set]
  split
  · exact h
  · rename_i hk
    rw [List.nodup_append]
    exact ⟨h, by simp, by
      intro a ha hb
      simp only [List.mem_singleton] at hb
      exact hk (hb ▸ ha)⟩

theorem get?_set_self (k v : List Byte) : ∀ (m : MyqSample), get? (set m k v) k = some v := by
  intro m
  induction m with
  | nil => simp [set, get?]
  | cons e m ih =>
    obtain ⟨k', v'⟩ := e
    by_cases hk : k' = k
    · simp [set, get?, hk]
    · simp [set, get?, hk, ih]

theorem get?_set_other {k k' : List Byte} (v : List Byte) (h : k' ≠ k) : ∀ (m : MyqSample),
    get? (set m k v) k' = get? m k' := by
  intro m
  induction m with
  | nil => simp [set, get?, h.symm]
  | cons e m ih =>
    obtain ⟨k0, v0⟩ := e
    by_cases hk : k0 = k
    · subst hk; simp [set, get?, h.symm]
    · by_cases hk0 : k0 = k'
      · subst hk0; simp [set, get?, hk]
      · simp [set, get?, hk, hk0, ih]

theorem set_ne_nil (k v : List Byte) (m : MyqSample) : set m k v ≠ [] := by
  cases m with
  | nil => simp [set]
  | cons e m =>
    obtain ⟨k', v'⟩ := e
    by_cases hk : k' = k <;> simp [set, hk]

end MyqSample

theorem setAll_cons (m : MyqSample) (kv : List Byte × List Byte)
    (kvs : List (List Byte × List Byte)) :
    setAll m (kv :: kvs) = setAll (m.set kv.1 kv.2) kvs := rfl

theorem setAll_append (m : MyqSample) (a b : List (List Byte × List Byte)) :
    setAll m (a ++ b) = setAll (setAll m a) b := by
  simp [setAll, List.foldl_append]

theorem setAll_nodup : ∀ (kvs : List (List Byte × List Byte)) (m : MyqSample),
    (m.map Prod.fst).Nodup → ((setAll m kvs).map Prod.fst).Nodup := by
  intro kvs
  induction kvs with
  | nil => intro m h; exact h
  | cons kv kvs ih => intro m h; exact ih _ (MyqSample.nodup_set kv.1 kv.2 m h)

theorem setAll_keys : ∀ (kvs : List (List Byte × List Byte)) (m : MyqSample) (k : List Byte),
    k ∈ (setAll m kvs).map Prod.fst → k ∈ m.map Prod.fst ∨ k ∈ kvs.map Prod.fst := by
  intro kvs
  induction kvs with
  | nil => intro m k h; exact Or.inl h
  | cons kv kvs ih =>
    intro m k h
    rcases ih _ k h with h1 | h1
    · rw [MyqSample.keys_set] at h1
      split at h1
      · exact Or.inl h1
      · rcases List.mem_append.mp h1 with h2 | h2
        · exact Or.inl h2
        · exact Or.inr (by simp at h2; simp [h2])
    · exact Or.inr (by simp [h1])

theorem setAll_get?_other : ∀ (kvs : List (List Byte × List Byte)) (m : MyqSample)
    (k : List Byte), (∀ kv ∈ kvs, kv.1 ≠ k) →
    (setAll m kvs).get? k = m.get? k := by
  intro kvs
  induction kvs with
  | nil => intro m k _; rfl
  | cons kv kvs ih =>
    intro m k h
    rw [setAll_cons, ih _ k (fun kv' hkv' => h kv' (by simp [hkv'])),
      MyqSample.get?_set_other kv.2 (h kv (by simp)).symm]

/-- Of the assignments to one key the last decides the value. -/
theorem setAll_last_wins (m : MyqSample) (pre post : List (List Byte × List Byte))
    (kv : List Byte × List Byte) (h : ∀ kv' ∈ post, kv'.1 ≠ kv.1) :
    (setAll m (pre ++ kv :: post)).get? kv.1 = some kv.2 := by
  rw [setAll_append, setAll_cons, setAll_get?_other post _ kv.1 h, MyqSample.get?_set_self]

theorem setAll_eq_nil_iff (kvs : List (List Byte × List Byte)) :
    setAll [] kvs = [] ↔ kvs = [] := by
  constructor
  · intro h
    cases kvs with
    | nil => rfl
    | cons kv kvs =>
      exfalso
      rw [setAll_cons] at h
      have hne : MyqSample.set [] kv.1 kv.2 ≠ [] := MyqSample.set_ne_nil _ _ _
      have hk : kv.1 ∈ (MyqSample.set [] kv.1 kv.2).map Prod.fst := by simp [MyqSample.set]
      have : ∀ (l : List (List Byte × List Byte)) (m : MyqSample), m ≠ [] → setAll m l ≠ [] := by
        intro l
        induction l with
        | nil => intro m hm; exact hm
        | cons x l ih => intro m _; exact ih _ (MyqSample.set_ne_nil _ _ _)
      exact this kvs _ hne h
  · intro h; subst h; rfl

theorem lowerByte_idem (b : Nat) : lowerByte (lowerByte b) = lowerByte b := by
  unfold lowerByte
  by_cases h : 65 ≤ b ∧ b ≤ 90
  · have hn : ¬ (65 ≤ b + 32 ∧ b + 32 ≤ 90) := by omega
    rw [if_pos h, if_neg hn]
  · rw [if_neg h, if_neg h]

/-- On ASCII text lowering twice is lowering once. -/
theorem asciiLowering_idem (s : List Byte) :
    asciiLowering.lower (asciiLowering.lower s) = asciiLowering.lower s := by
  simp [asciiLowering, lowerByte_idem]

theorem lowerKeys_keys_lower [Lowering] (fs : List (List Byte × List Byte)) :
    ∀ k ∈ (lowerKeys fs).map Prod.fst, ∃ kv ∈ fs, k = ToLower kv.1 := by
  intro k hk
  simp only [lowerKeys, List.map_map, List.mem_map, Function.comp] at hk
  obtain ⟨kv, hkv, rfl⟩ := hk
  exact ⟨kv, hkv, rfl⟩

/-- The Sample built from a record has pairwise distinct keys, each the lowered
key of a field of the record. -/
theorem buildSample_keys [Lowering] {outputtype : showoutputtype} {buffer : List Byte}
    {m : MyqSample} (h : buildSample outputtype buffer = some m) :
    ∃ fs, fields outputtype 0 (ScanLines buffer) = some fs ∧ m = setAll [] (lowerKeys fs) ∧
      (m.map Prod.fst).Nodup ∧ ∀ k ∈ m.map Prod.fst, ∃ kv ∈ fs, k = ToLower kv.1 := by
  rw [buildSample_eq_fields] at h
  cases hf : fields outputtype 0 (ScanLines buffer) with
  | none => rw [hf] at h; simp at h
  | some fs =>
    rw [hf] at h
    simp only [Option.map_some', Option.some.injEq] at h
    refine ⟨fs, rfl, h.symm, ?_, ?_⟩
    · rw [← h]; exact setAll_nodup _ [] (by simp)
    · intro k hk
      rw [← h] at hk
      rcases setAll_keys _ [] k hk with h1 | h1
      · simp at h1
      · exact lowerKeys_keys_lower fs k h1

theorem fields_of_discarded (outputtype : showoutputtype) : ∀ (lines : List (List Byte)),
    (∀ line ∈ lines, lineField outputtype 0 line = some (0, none)) →
    fields outputtype 0 lines = some [] := by
  intro lines
  induction lines with
  | nil => intro _; rfl
  | cons line rest ih =>
    intro h
    rw [fields, h line (by simp)]
    simp only []
    rw [ih (fun l hl => h l (by simp [hl]))]
    rfl

namespace MyqSample

theorem mem_keys_set (k v : List Byte) (m : MyqSample) (k' : List Byte) :
    k' ∈ (set m k v).map Prod.fst ↔ k' ∈ m.map Prod.fst ∨ k' = k := by
  rw [keys_set]
  split
  · rename_i h
    constructor
    · intro h1; exact Or.inl h1
    · intro h1
      rcases h1 with h1 | h1
      · exact h1
      · rw [h1]; exact h
  · simp

theorem get?_eq_none_iff (k : List Byte) : ∀ (m : MyqSample),
    get? m k = none ↔ k ∉ m.map Prod.fst := by
  intro m
  induction m with
  | nil => simp [get?]
  | cons e m ih =>
    obtain ⟨k', v'⟩ := e
    by_cases hk : k' = k
    · simp [get?, hk]
    · have hk' : ¬ k = k' := fun h => hk h.symm
      simp [get?, hk, hk', ih]

end MyqSample

/-- The keys after a run of assignments are the keys before and the keys
assigned. -/
theorem setAll_keys_iff : ∀ (kvs : List (List Byte × List Byte)) (m : MyqSample) (k : List Byte),
    k ∈ (setAll m kvs).map Prod.fst ↔ k ∈ m.map Prod.fst ∨ k ∈ kvs.map Prod.fst := by
  intro kvs
  induction kvs with
  | nil => intro m k; simp [setAll]
  | cons kv kvs ih =>
    intro m k
    rw [setAll_cons, ih, MyqSample.mem_keys_set]
    simp only [List.map_cons, List.mem_cons]
    tauto

theorem mem_keys_lowerKeys [Lowering] (fs : List (List Byte × List Byte)) (k : List Byte) :
    k ∈ (lowerKeys fs).map Prod.fst ↔ ∃ kv ∈ fs, k = ToLower kv.1 := by
  simp only [lowerKeys, List.map_map, List.mem_map, Function.comp]
  constructor
  · rintro ⟨kv, hkv, rfl⟩; exact ⟨kv, hkv, rfl⟩
  · rintro ⟨kv, hkv, rfl⟩; exact ⟨kv, hkv, rfl⟩

/-- The Sample of a list of fields: its keys are the lowered keys of the fields,
and the last field of a key, ignoring case, gives the value. -/
theorem setAll_lowerKeys [Lowering] (fs : List (List Byte × List Byte)) :
    ((setAll [] (lowerKeys fs)).map Prod.fst).Nodup ∧
    (∀ k, k ∈ (setAll [] (lowerKeys fs)).map Prod.fst ↔ ∃ kv ∈ fs, k = ToLower kv.1) ∧
    (∀ (pre post : List (List Byte × List Byte)) (kv : List Byte × List Byte),
      fs = pre ++ kv :: post → (∀ kv' ∈ post, ToLower kv'.1 ≠ ToLower kv.1) →
      (setAll [] (lowerKeys fs)).get? (ToLower kv.1) = some kv.2) := by
  refine ⟨setAll_nodup _ [] (by simp), ?_, ?_⟩
  · intro k
    rw [setAll_keys_iff, mem_keys_lowerKeys]
    simp
  · intro pre post kv hsplit hlast
    rw [hsplit]
    have : lowerKeys (pre ++ kv :: post)
        = lowerKeys pre ++ (ToLower kv.1, kv.2) :: lowerKeys post := by
      simp [lowerKeys]
    rw [this]
    exact setAll_last_wins [] (lowerKeys pre) (lowerKeys post) (ToLower kv.1, kv.2) (by
      intro kv' hkv'
      simp only [lowerKeys, List.mem_map] at hkv'
      obtain ⟨x, hx, rfl⟩ := hkv'
      exact hlast x hx)

/-- The Sample that `parseBatch` builds from a well-formed TABULAR record, the
keys of the rows distinct or not. -/
theorem buildSample_tabular_rows [Lowering] (lines : List TabLine) (d : Nat)
    (hwf : ∀ l ∈ lines, l.WellFormed d) :
    buildSample TABULAR (joinLines (lines.map TabLine.bytes))
      = some (setAll [] (lowerKeys (tabRows lines))) := by
  have hnl : ∀ l ∈ lines.map TabLine.bytes, NL ∉ l := by
    intro l hl
    obtain ⟨tl, htl, rfl⟩ := List.mem_map.mp hl
    exact NL_not_mem_bytes (hwf tl htl)
  obtain ⟨d1, h1⟩ := parseLines_tabular d lines 0 [] hwf (Or.inl rfl)
  unfold buildSample
  rw [ScanLines_joinLines _ hnl, List.map_map]
  have : (dropCR ∘ TabLine.bytes) = fun l => dropCR l.bytes := rfl
  rw [this, h1]
  rfl

theorem parseBatch_tabular_rows [Lowering] (lines : List TabLine) (d : Nat)
    (hwf : ∀ l ∈ lines, l.WellFormed d) (hN : tabRows lines ≠ []) :
    parseBatch (joinLines (lines.map TabLine.bytes)) TABULAR
      = some [setAll [] (lowerKeys (tabRows lines))] := by
  unfold parseBatch
  rw [buildSample_tabular_rows lines d hwf]
  have hne : setAll [] (lowerKeys (tabRows lines)) ≠ [] := by
    intro h
    have := (setAll_eq_nil_iff _).mp h
    simp only [lowerKeys, List.map_eq_nil_iff] at this
    exact hN this
  have : 0 < (setAll [] (lowerKeys (tabRows lines))).Length := List.length_pos.mpr hne
  simp [this]

/-! ## More on the marker search -/

theorem infix_cons_cases {sep s : List Byte} {c : Byte} (h : sep <:+: c :: s) :
    sep <+: c :: s ∨ sep <:+: s := by
  rcases List.infix_cons_iff.mp h with h1 | h1
  · exact Or.inl h1
  · exact Or.inr h1

/-- Either the text is absent, or it has a first occurrence. -/
theorem Index_cases (sep : List Byte) : ∀ (s : List Byte),
    ¬ sep <:+: s ∨ ∃ n, FirstAt sep s n := by
  intro s
  induction s with
  | nil =>
    by_cases h : sep <+: []
    · exact Or.inr ⟨0, by simpa using h, by simp, by simp⟩
    · exact Or.inl (fun hin => h (by
        have := List.eq_nil_of_infix_nil hin
        rw [this]))
  | cons c s ih =>
    by_cases h : sep <+: c :: s
    · exact Or.inr ⟨0, by simpa using h, by simp, by simp⟩
    · rcases ih with h1 | ⟨n, h1, h2, h3⟩
      · exact Or.inl (fun hin => (infix_cons_cases hin).elim h h1)
      · refine Or.inr ⟨n + 1, by simpa using h1, by simpa using h2, ?_⟩
        intro m hm
        cases m with
        | zero => simpa using h
        | succ m => simpa using h3 m (by omega)

theorem firstAt_unique {sep s : List Byte} {n n' : Nat} (h : FirstAt sep s n)
    (h' : FirstAt sep s n') : n = n' := by
  have h1 := Index_of_firstAt h
  have h2 := Index_of_firstAt h'
  rw [h1] at h2
  exact_mod_cast h2

theorem sep_ne_nil_of_firstAt {sep s : List Byte} {n : Nat} (h : FirstAt sep s n)
    (hpos : 0 < n) : sep ≠ [] := by
  intro he
  exact h.2.2 0 hpos (by rw [he]; exact List.nil_prefix)

/-- The bytes before the first occurrence of a text do not hold the text. -/
theorem no_marker_before_first {sep s : List Byte} {n : Nat} (h : FirstAt sep s n)
    (hpos : 0 < n) : ¬ sep <:+: s.take n := by
  have hne := sep_ne_nil_of_firstAt h hpos
  have hlen : 0 < sep.length := List.length_pos.mpr hne
  refine @no_marker_in_short_buffer sep (s.take n) (s.drop n) n
    (by rw [List.take_append_drop]; exact h.2.2) ?_
  rw [List.length_take]
  have := h.2.1
  omega

theorem IndexByte_lt_length (c : Byte) : ∀ (s : List Byte), IndexByte s c < (s.length : Int) + 0 ∨
    (s = [] ∧ IndexByte s c = -1) := by
  intro s
  induction s with
  | nil => exact Or.inr ⟨rfl, rfl⟩
  | cons b s ih =>
    left
    by_cases hb : b = c
    · simp [IndexByte, hb]
    · simp only [IndexByte, if_neg hb, List.length_cons, Nat.cast_add, Nat.cast_one]
      rcases ih with h | ⟨_, h⟩
      · split <;> omega
      · rw [h]; simp; omega

theorem IndexByte_le (c : Byte) (s : List Byte) : IndexByte s c + 1 ≤ (s.length : Int) := by
  rcases IndexByte_lt_length c s with h | ⟨h1, h2⟩
  · omega
  · rw [h2, h1]; simp

/-- With filtering disabled the split callback always returns, and what it
returns is fixed by the place of the marker. -/
theorem splitFunc_nofilter {F : Type} (ops : Float64Ops F) (interval : Int)
    (st : SplitState F) (data : List Byte) (atEOF : Bool)
    (hchk : check_intervals interval = false) :
    (¬ (typecheck st data).recordmatch <:+: data ∧
      splitFunc ops interval st data atEOF =
        if atEOF && decide (data.length > 0) then
          some (typecheck st data, (data.length : Int), some data)
        else some (typecheck st data, 0, none)) ∨
    (FirstAt (typecheck st data).recordmatch data 0 ∧
      splitFunc ops interval st data atEOF
        = some (typecheck st data, IndexByte data NL + 1, none)) ∨
    (∃ e : Nat, 0 < e ∧ FirstAt (typecheck st data).recordmatch data e ∧
      splitFunc ops interval st data atEOF
        = some (typecheck st data, (e : Int) + IndexByte (data.drop e) NL + 1,
            some (data.take e))) := by
  rcases Index_cases (typecheck st data).recordmatch data with h | ⟨n, h⟩
  · exact Or.inl ⟨h, splitFunc_no_marker ops interval st data atEOF h⟩
  · cases n with
    | zero =>
      exact Or.inr (Or.inl ⟨h, splitFunc_marker_first ops interval st data atEOF
        (by simpa using h.1)⟩)
    | succ n =>
      refine Or.inr (Or.inr ⟨n + 1, Nat.succ_pos n, h, ?_⟩)
      rw [splitFunc_found ops interval st data atEOF (n + 1) h (Nat.succ_pos n), hchk]
      simp

theorem typecheck_typechecked {F : Type} (st : SplitState F) (data : List Byte) :
    (typecheck st data).typechecked = true := by
  unfold typecheck
  cases h : st.typechecked
  · simp only [Bool.not_false, if_true]; split <;> rfl
  · simp [h]

/-- The layout in the state that the split callback returns is the one of the
layout check. -/
theorem splitFunc_layout {F : Type} (ops : Float64Ops F) (interval : Int) (st : SplitState F)
    (data : List Byte) (atEOF : Bool) (r : SplitState F × Int × Option (List Byte))
    (h : splitFunc ops interval st data atEOF = some r) :
    r.1.outputtype = (typecheck st data).outputtype ∧
    r.1.recordmatch = (typecheck st data).recordmatch ∧ r.1.typechecked = true := by
  have htc := typecheck_typechecked st data
  rcases Index_cases (typecheck st data).recordmatch data with hno | ⟨n, hf⟩
  · rw [splitFunc_no_marker ops interval st data atEOF hno] at h
    split at h <;> (simp only [Option.some.injEq] at h; subst h; exact ⟨rfl, rfl, htc⟩)
  · cases n with
    | zero =>
      rw [splitFunc_marker_first ops interval st data atEOF (by simpa using hf.1)] at h
      simp only [Option.some.injEq] at h; subst h; exact ⟨rfl, rfl, htc⟩
    | succ n =>
      rw [splitFunc_found ops interval st data atEOF (n + 1) hf (Nat.succ_pos n)] at h
      split at h
      · split at h
        · simp at h
        · simp only [Option.some.injEq] at h; subst h; exact ⟨rfl, rfl, htc⟩
        · simp only [Option.some.injEq] at h; subst h; exact ⟨rfl, rfl, htc⟩
      · simp only [Option.some.injEq] at h; subst h; exact ⟨rfl, rfl, htc⟩

/-- Once the layout is checked, the scanner loop ends with the same layout and
marker. -/
theorem scanLoop_layout [Lowering] {F : Type} (ops : Float64Ops F) (interval : Int) :
    ∀ (fuel : Nat) (st : SplitState F) (buf : List Byte) (pending : List (List Byte))
      (eof : Bool) (out : List MyqSample) (r : Run F),
      st.typechecked = true → scanLoop ops interval fuel st buf pending eof out = some r →
      r.final.outputtype = st.outputtype ∧ r.final.recordmatch = st.recordmatch := by
  intro fuel
  induction fuel with
  | zero => intro st buf pending eof out r _ h; simp [scanLoop] at h
  | succ fuel ih =>
    intro st buf pending eof out r hst h
    rw [scanLoop] at h
    split at h
    · cases hs : splitFunc ops interval st buf eof with
      | none => rw [hs] at h; simp at h
      | some res =>
        obtain ⟨st', advance, token⟩ := res
        have hl := splitFunc_layout ops interval st buf eof _ hs
        rw [typecheck_of_checked st buf hst] at hl
        rw [hs] at h
        simp only [] at h
        split at h
        · simp at h
        · cases token with
          | some record =>
            simp only [] at h
            cases hp : parseBatch record st'.outputtype with
            | none => rw [hp] at h; simp at h
            | some samples =>
              rw [hp] at h
              simp only [] at h
              have := ih _ _ _ _ _ _ hl.2.2 h
              exact ⟨this.1.trans hl.1, this.2.trans hl.2.1⟩
          | none =>
            simp only [] at h
            split at h
            · simp only [Option.some.injEq] at h
              subst h
              exact ⟨hl.1, hl.2.1⟩
            · have := ih _ _ _ _ _ _ hl.2.2 h
              exact ⟨this.1.trans hl.1, this.2.trans hl.2.1⟩
    · exact ih _ _ _ _ _ _ hst h

/-! ## A line put into a record -/

theorem scanLinesFrom_append_nl (after : List Byte) : ∀ (r cur : List Byte),
    scanLinesFrom (r ++ NL :: after) cur
      = scanLinesFrom (r ++ [NL]) cur ++ scanLinesFrom after [] := by
  intro r
  induction r with
  | nil => intro cur; simp [scanLinesFrom]
  | cons b r ih =>
    intro cur
    by_cases hb : b = NL
    · rw [List.cons_append, List.cons_append, scanLinesFrom, scanLinesFrom, if_pos hb, if_pos hb,
        ih []]
      rfl
    · rw [List.cons_append, List.cons_append, scanLinesFrom, scanLinesFrom, if_neg hb, if_neg hb,
        ih (cur ++ [b])]

theorem ScanLines_append {before : List Byte} (after : List Byte) (h : LineStart before) :
    ScanLines (before ++ after) = ScanLines before ++ ScanLines after := by
  rcases h with h | h
  · subst h; rfl
  · obtain ⟨r, hr⟩ : ∃ r, before = r ++ [NL] := by
      have hne : before ≠ [] := by intro h0; rw [h0] at h; simp at h
      refine ⟨before.dropLast, ?_⟩
      have h1 := List.dropLast_append_getLast? NL (by simpa using h)
      exact h1.symm
    subst hr
    unfold ScanLines
    have : r ++ [NL] ++ after = r ++ NL :: after := by simp
    rw [this, scanLinesFrom_append_nl]

theorem ScanLines_insert {before : List Byte} (after line : List Byte) (h : LineStart before)
    (hline : NL ∉ line) :
    ScanLines (before ++ line ++ NL :: after)
      = ScanLines before ++ dropCR line :: ScanLines after := by
  rw [List.append_assoc, ScanLines_append _ h]
  congr 1
  unfold ScanLines
  rw [scanLinesFrom_line line [] hline]
  simp

theorem parseLines_append [Lowering] (outputtype : showoutputtype) : ∀ (l1 l2 : List (List Byte))
    (st : BatchState),
    parseLines outputtype st (l1 ++ l2) =
      match parseLines outputtype st l1 with
      | none => none
      | some s => parseLines outputtype s l2 := by
  intro l1
  induction l1 with
  | nil => intro l2 st; rfl
  | cons x l1 ih =>
    intro l2 st
    simp only [List.cons_append, parseLines]
    cases parseLine outputtype st x with
    | none => rfl
    | some s => exact ih l2 s

/-- A line whose round leaves the state of the loop as it is can be put into
the record without any change to the Sample. -/
theorem buildSample_insert [Lowering] (outputtype : showoutputtype) (before after line : List Byte)
    (hstart : LineStart before) (hline : NL ∉ line)
    (hskip : ∀ s, parseLines outputtype ⟨0, []⟩ (ScanLines before) = some s →
      parseLine outputtype s (dropCR line) = some s) :
    buildSample outputtype (before ++ line ++ NL :: after)
      = buildSample outputtype (before ++ after) := by
  unfold buildSample
  rw [ScanLines_insert after line hstart hline, ScanLines_append after hstart,
    parseLines_append, parseLines_append]
  cases h : parseLines outputtype ⟨0, []⟩ (ScanLines before) with
  | none => rfl
  | some s =>
    simp only [parseLines, hskip s h]

theorem parseBatch_congr [Lowering] {outputtype : showoutputtype} {a b : List Byte}
    (h : buildSample outputtype a = buildSample outputtype b) :
    parseBatch a outputtype = parseBatch b outputtype := by
  unfold parseBatch; rw [h]

theorem Split_length (sep : Byte) : ∀ (s : List Byte), (Split s sep).length = s.count sep + 1 := by
  intro s
  induction s with
  | nil => rfl
  | cons b s ih =>
    by_cases hb : b = sep
    · subst hb; simp [Split, ih]
    · have hc : (b :: s).count sep = s.count sep := by
        rw [List.count_cons]; simp [hb]
      rw [hc, ← ih]
      simp only [Split, if_neg hb]
      cases hs : Split s sep with
      | nil => rw [hs] at ih; simp at ih
      | cons p ps => simp

theorem count_dropCR (line : List Byte) : (dropCR line).count TAB = line.count TAB := by
  unfold dropCR
  split
  · rename_i h
    have h1 := List.dropLast_append_getLast? CR (by simpa using h)
    conv_rhs => rw [← h1]
    rw [List.count_append]
    simp [TAB, CR]
  · rfl

theorem parseLine_batch_skip [Lowering] (st : BatchState) (line : List Byte)
    (h : (Split line TAB).length ≠ 2) : parseLine BATCH st line = some st := by
  unfold parseLine
  simp only []
  split
  · rename_i h2; rw [h2] at h; simp at h
  · rfl

theorem parseLine_batch_some [Lowering] (st : BatchState) (line : List Byte) :
    ∃ s, parseLine BATCH st line = some s := by
  unfold parseLine
  simp only []
  split
  · exact ⟨_, rfl⟩
  · exact ⟨_, rfl⟩

/-- In layout BATCH the loop of `parseBatch` always ends normally. -/
theorem parseLines_batch_some [Lowering] : ∀ (lines : List (List Byte)) (st : BatchState),
    ∃ s, parseLines BATCH st lines = some s := by
  intro lines
  induction lines with
  | nil => intro st; exact ⟨st, rfl⟩
  | cons x lines ih =>
    intro st
    obtain ⟨s, hs⟩ := parseLine_batch_some st x
    obtain ⟨s', hs'⟩ := ih s
    exact ⟨s', by simp [parseLines, hs, hs']⟩

theorem buildSample_batch_some [Lowering] (buffer : List Byte) : ∃ m, buildSample BATCH buffer = some m := by
  obtain ⟨s, hs⟩ := parseLines_batch_some (ScanLines buffer) ⟨0, []⟩
  exact ⟨s.timesample, by simp [buildSample, hs]⟩

theorem parseLine_tabular_short [Lowering] (st : BatchState) (line : List Byte)
    (h : (line.length : Int) < st.divideridx) : parseLine TABULAR st line = some st := by
  unfold parseLine
  simp only []
  split
  · rfl
  · have h0 : st.divideridx ≠ 0 := by omega
    simp [h0, h]

theorem length_dropCR_le (line : List Byte) : (dropCR line).length ≤ line.length := by
  unfold dropCR
  split
  · simp
  · exact le_refl _

theorem Blank_facts {line : List Byte} (h : Blank line) :
    NL ∉ line ∧ dropCR line = line ∧ HasPrefix line (B "|") = false := by
  refine ⟨?_, ?_, ?_⟩
  · intro hm; rcases h _ hm with h1 | h1 <;> simp [NL, SPACE, TAB] at h1
  · apply dropCR_of_getLast
    intro hl
    rcases h _ (List.mem_of_getLast?_eq_some hl) with h1 | h1 <;> simp [CR, SPACE, TAB] at h1
  · rw [B_pipe]
    cases line with
    | nil => rfl
    | cons b line =>
      have hb : b ≠ PIPE := by
        intro hp
        rcases h b (by simp) with h1 | h1 <;> (rw [hp] at h1; simp [PIPE, SPACE, TAB] at h1)
      simp [HasPrefix, List.isPrefixOf, Ne.symm hb]

theorem parseLine_blank [Lowering] (outputtype : showoutputtype) (st : BatchState) (line : List Byte)
    (hblank : Blank line) (htabs : outputtype = BATCH → line.count TAB ≠ 1) :
    parseLine outputtype st line = some st := by
  cases outputtype with
  | BATCH =>
    apply parseLine_batch_skip
    rw [Split_length]
    have := htabs rfl
    omega
  | TABULAR =>
    unfold parseLine
    simp [(Blank_facts hblank).2.2]

/-- A TABULAR line that starts with the pipe and is at least as long as the
divider offset found before is cut at that offset. -/
theorem parseLine_tabular_cut [Lowering] (st : BatchState) (line : List Byte)
    (hpos : 0 < st.divideridx) (hpipe : HasPrefix line (B "|") = true)
    (hlen : st.divideridx ≤ (line.length : Int)) :
    parseLine TABULAR st line
      = some ⟨st.divideridx,
          st.timesample.set (ToLower (Trim (line.take st.divideridx.toNat)))
            (Trim (line.drop st.divideridx.toNat))⟩ := by
  have h0 : st.divideridx ≠ 0 := by omega
  have hnot : ¬ (line.length : Int) < st.divideridx := by omega
  have h1 : slice line 0 st.divideridx = some (line.take st.divideridx.toNat) := by
    unfold slice
    rw [if_pos ⟨le_refl _, by omega, hlen⟩]
    simp
  have h2 : slice line st.divideridx line.length = some (line.drop st.divideridx.toNat) := by
    unfold slice
    rw [if_pos ⟨by omega, hlen, le_refl _⟩]
    simp
  unfold parseLine
  simp only [hpipe, Bool.not_true, Bool.false_eq_true, if_false, h0, hnot, h1, h2]

/-- The loop of `parseBatch` on a buffer with a line put in at the start of a
line: the loop runs over the lines before, the line, and the lines after. -/
theorem parseLines_insert [Lowering] (outputtype : showoutputtype)
    (before after line : List Byte) (hstart : LineStart before) (hline : NL ∉ line)
    (s s' : BatchState)
    (hs : parseLines outputtype ⟨0, []⟩ (ScanLines before) = some s)
    (hl : parseLine outputtype s (dropCR line) = some s') :
    parseLines outputtype ⟨0, []⟩ (ScanLines (before ++ line ++ NL :: after))
      = parseLines outputtype s' (ScanLines after) := by
  rw [ScanLines_insert after line hstart hline, parseLines_append, hs]
  simp only [parseLines, hl]

/-! ## Records parsed end to end -/

/-- C1 fails as stated: in the stream `foo\tbar\nx\ty====\n` with the marker
`====` and filtering disabled, the one line `foo\tbar` is followed by one line
that holds the marker, after the text `x\ty`.  The split callback returns the
token `foo\tbar\nx\ty`, which is not the one line, and the Sample published has
the two keys `foo` and `x`. -/
theorem marker_after_text_counterexample :
    B "foo\tbar\nx\ty====\n" = joinLines [batchLine (B "foo", B "bar")] ++ B "x\ty====" ++ [NL] ∧
    B "====" <:+: B "x\ty====" ∧ NL ∉ B "x\ty====" ∧
    ¬ B "====" <:+: batchLine (B "foo", B "bar") ∧
    check_intervals 0 = false ∧
    splitFunc decOps 0 ⟨BATCH, false, B "====", decOps.zero⟩ (B "foo\tbar\nx\ty====\n") false
      = some (⟨BATCH, true, B "====", decOps.zero⟩, 16, some (B "foo\tbar\nx\ty")) ∧
    B "foo\tbar\nx\ty" ≠ joinLines [batchLine (B "foo", B "bar")] ∧
    parseBatch (B "foo\tbar\nx\ty") BATCH = some [[(B "foo", B "bar"), (B "x", B "y")]] ∧
    (parseSamples decOps (B "====") 0 [B "foo\tbar\nx\ty====\n"]).map Run.published
      = some [[(B "foo", B "bar"), (B "x", B "y")]] ∧
    MyqSample.Length [(B "foo", B "bar"), (B "x", B "y")] = 2 := by
  refine ⟨by decide, by decide, by decide, by decide, by decide, by decide, by decide,
    by decide, by decide!, by decide⟩

/-- C1 as amended: BATCH end to end with filtering disabled.  Let the input be
`N ≥ 1` lines `key<TAB>value` (no tab or line feed in keys and values, no
carriage return in values, keys pairwise distinct ignoring case, no line
holding the marker, the input not beginning with `+` or `|`) followed by one
line that begins with the end-of-record marker.  Then the split callback, in
the initial state, returns the `N` lines as its token and consumes the whole
input; `parseBatch` sends exactly one Sample for that record, and so does
`parseSamples` for the stream, in whatever chunks the reader delivers it; and
that Sample has `N` keys, the lower-case forms of the keys of the lines, each
mapped to the value of its line. -/
theorem batch_end_to_end [Lowering] {F : Type} (ops : Float64Ops F) (END_STRING tail : List Byte)
    (interval : Int) (kvs : List (List Byte × List Byte)) (atEOF : Bool)
    (hN : kvs ≠ [])
    (hchk : check_intervals interval = false)
    (hkey : ∀ kv ∈ kvs, TAB ∉ kv.1 ∧ NL ∉ kv.1)
    (hval : ∀ kv ∈ kvs, TAB ∉ kv.2 ∧ NL ∉ kv.2 ∧ CR ∉ kv.2)
    (hdistinct : (kvs.map (fun kv => ToLower kv.1)).Nodup)
    (hplus : HasPrefix (batchInput kvs END_STRING tail) (B "+") = false)
    (hpipe : HasPrefix (batchInput kvs END_STRING tail) (B "|") = false)
    (hline : ∀ kv ∈ kvs, ¬ END_STRING <:+: batchLine kv)
    (hend : NL ∉ END_STRING) (htail : NL ∉ tail) :
    (∃ st', splitFunc ops interval ⟨BATCH, false, END_STRING, ops.zero⟩
        (batchInput kvs END_STRING tail) atEOF
        = some (st', ((batchInput kvs END_STRING tail).length : Int),
            some (joinLines (kvs.map batchLine))) ∧ st'.outputtype = BATCH) ∧
    parseBatch (joinLines (kvs.map batchLine)) BATCH = some [lowerKeys kvs] ∧
    (∀ chunks : List (List Byte), chunks.flatten = batchInput kvs END_STRING tail →
      (parseSamples ops END_STRING interval chunks).map Run.published = some [lowerKeys kvs]) ∧
    (lowerKeys kvs).Length = kvs.length ∧
    (∀ kv ∈ kvs, (lowerKeys kvs).get? (ToLower kv.1) = some kv.2) ∧
    (∀ k v, (lowerKeys kvs).get? k = some v → ∃ kv ∈ kvs, k = ToLower kv.1 ∧ v = kv.2) := by
  have hlen : (lowerKeys kvs).Length = kvs.length := by simp [lowerKeys, MyqSample.Length]
  have hlenpos : 0 < kvs.length := List.length_pos.mpr hN
  -- the record and the place of the marker
  have hrecpos : 0 < (joinLines (kvs.map batchLine)).length := by
    cases kvs with
    | nil => exact absurd rfl hN
    | cons kv kvs => simp [joinLines]
  have hmarkne : END_STRING ≠ [] := by
    intro h
    cases kvs with
    | nil => exact absurd rfl hN
    | cons kv kvs => exact hline kv (by simp) (by rw [h]; exact List.nil_infix)
  have hinput : batchInput kvs END_STRING tail
      = joinLines (kvs.map batchLine) ++ (END_STRING ++ (tail ++ [NL])) := by
    simp [batchInput]
  have htc : typecheck (⟨BATCH, false, END_STRING, ops.zero⟩ : SplitState F)
      (batchInput kvs END_STRING tail) = ⟨BATCH, true, END_STRING, ops.zero⟩ := by
    simp [typecheck, hplus, hpipe]
  have hfirst : FirstAt END_STRING (batchInput kvs END_STRING tail)
      (joinLines (kvs.map batchLine)).length := by
    refine ⟨?_, ?_, ?_⟩
    · rw [hinput, List.drop_left]; exact List.prefix_append _ _
    · rw [hinput]; simp
    · intro m hm
      rw [hinput]
      exact not_prefix_in_joinLines hend _
        (fun l hl => by
          obtain ⟨kv, hkv, rfl⟩ := List.mem_map.mp hl
          exact hline kv hkv) m hm
  have hidx : IndexByte ((batchInput kvs END_STRING tail).drop
      (joinLines (kvs.map batchLine)).length) NL = ((END_STRING ++ tail).length : Int) := by
    rw [hinput, List.drop_left]
    have : END_STRING ++ (tail ++ [NL]) = (END_STRING ++ tail) ++ NL :: [] := by simp
    rw [this]
    exact IndexByte_append (by simp [hend, htail])
  have htake : (batchInput kvs END_STRING tail).take (joinLines (kvs.map batchLine)).length
      = joinLines (kvs.map batchLine) := by
    rw [hinput, List.take_left]
  have hsplit : ∀ eof, splitFunc ops interval ⟨BATCH, false, END_STRING, ops.zero⟩
      (batchInput kvs END_STRING tail) eof
      = some (⟨BATCH, true, END_STRING, ops.zero⟩,
          (((batchInput kvs END_STRING tail).length : Nat) : Int),
          some (joinLines (kvs.map batchLine))) := by
    intro eof
    rw [splitFunc_found ops interval _ _ eof _ (by rw [htc]; exact hfirst) hrecpos,
      hchk, htc, hidx, htake]
    simp only [Bool.false_eq_true, if_false]
    congr 3
    rw [hinput]; simp; omega
  have hparse : parseBatch (joinLines (kvs.map batchLine)) BATCH = some [lowerKeys kvs] := by
    unfold parseBatch
    rw [buildSample_batch kvs hkey hval hdistinct]
    simp [hlen, hlenpos]
  refine ⟨⟨_, hsplit atEOF, rfl⟩, hparse, ?_, hlen, lowerKeys_get? hdistinct⟩
  -- the scanner loop, for any chunks
  intro chunks hchunks
  have hbody : joinLines (kvs.map batchLine) ≠ [] := List.length_pos.mp hrecpos
  have hdata : joinLines (kvs.map batchLine) ++ (END_STRING ++ (tail ++ [NL]))
      = joinLines (kvs.map batchLine) ++ ((END_STRING ++ tail) ++ [NL]) := by simp
  have hB1 : B "+" = [43] := by decide
  have hB2 : B "|" = [124] := by decide
  have hne : batchInput kvs END_STRING tail ≠ [] := by
    rw [hinput]; simp [hbody]
  have hrun := scanLoop_batch_record ops interval hchk END_STRING (joinLines (kvs.map batchLine))
    (END_STRING ++ tail) [lowerKeys kvs] hbody (by rw [← hdata, ← hinput]; exact hfirst.2.2)
    (List.prefix_append _ _) hmarkne (by simp [hend, htail])
    (by rw [hB1, ← @HasPrefix_byte_of_append _ [] _ _ 43 (by rw [List.append_nil]; exact hinput)
          hne hbody, ← hB1]; exact hplus)
    (by rw [hB2, ← @HasPrefix_byte_of_append _ [] _ _ 124 (by rw [List.append_nil]; exact hinput)
          hne hbody, ← hB2]; exact hpipe)
    hparse chunks [] ⟨BATCH, false, END_STRING, ops.zero⟩
    (2 * (chunks.flatten.length + chunks.length) + 4)
    (by rw [List.nil_append, hchunks, hinput, hdata]) (Or.inl rfl) (by omega)
  unfold parseSamples
  rw [hrun]
  rfl

/-- A witness for the amended C1: the stream `foo\tbar\nUptime\t100\n====\n` with the marker
`====` gives the Sample {foo: bar, uptime: 100}. -/
theorem batch_end_to_end_witness :
    (parseSamples decOps (B "====") 0 [B "foo\tbar\nUptime\t100\n====\n"]).map Run.published
      = some [[(B "foo", B "bar"), (B "uptime", B "100")]] :=
  (batch_end_to_end decOps (B "====") [] 0 [(B "foo", B "bar"), (B "Uptime", B "100")] false
    (by decide) (by decide) (by decide) (by decide) (by decide) (by decide) (by decide)
    (by decide) (by decide) (by decide)).2.2.1 [B "foo\tbar\nUptime\t100\n====\n"] (by decide)

/-- C2: for a TABULAR record whose lines are rows `| key<pad> | value<pad> |` with
the column divider at the same offset `d` in every row (keys not empty and free
of spaces, pipes and line feeds, pairwise distinct ignoring case; values free
of line feeds, neither beginning nor ending with a pipe or a space) and border
lines that do not start with a pipe, with at least one row, `parseBatch` builds
and sends one Sample; it has as many keys as there are rows, the lower-case
forms of the keys of the rows, each mapped to the value of its row. -/
theorem tabular_record_parsed [Lowering] (lines : List TabLine) (d : Nat)
    (hwf : ∀ l ∈ lines, l.WellFormed d) (hN : tabRows lines ≠ [])
    (hdistinct : ((tabRows lines).map (fun kv => ToLower kv.1)).Nodup) :
    buildSample TABULAR (joinLines (lines.map TabLine.bytes)) = some (lowerKeys (tabRows lines)) ∧
    parseBatch (joinLines (lines.map TabLine.bytes)) TABULAR = some [lowerKeys (tabRows lines)] ∧
    (lowerKeys (tabRows lines)).Length = (tabRows lines).length ∧
    (∀ kv ∈ tabRows lines, (lowerKeys (tabRows lines)).get? (ToLower kv.1) = some kv.2) ∧
    (∀ k v, (lowerKeys (tabRows lines)).get? k = some v →
      ∃ kv ∈ tabRows lines, k = ToLower kv.1 ∧ v = kv.2) :=
  ⟨buildSample_tabular lines d hwf hdistinct, parseBatch_tabular lines d hwf hN hdistinct,
    by simp [lowerKeys, MyqSample.Length], lowerKeys_get? hdistinct⟩

/-- A witness for C2: a table of two rows between two border lines; the second
value holds a space. -/
theorem tabular_record_parsed_witness :
    parseBatch (B ("+--------+---------+\n| foo    | bar     |\n" ++
        "| Uptime | 100 200 |\n+--------+---------+\n"))
      TABULAR = some [[(B "foo", B "bar"), (B "uptime", B "100 200")]] := by
  have h := (tabular_record_parsed
    [.border (B "+--------+---------+"), .row (B "foo") 3 (B "bar") 4,
      .row (B "Uptime") 0 (B "100 200") 0, .border (B "+--------+---------+")] 8
    (by decide) (by decide) (by decide)).2.1
  have e1 : joinLines (List.map TabLine.bytes
      [.border (B "+--------+---------+"), .row (B "foo") 3 (B "bar") 4,
        .row (B "Uptime") 0 (B "100 200") 0, .border (B "+--------+---------+")])
      = B ("+--------+---------+\n| foo    | bar     |\n" ++
        "| Uptime | 100 200 |\n+--------+---------+\n") := by decide
  have e2 : lowerKeys (tabRows
      [.border (B "+--------+---------+"), .row (B "foo") 3 (B "bar") 4,
        .row (B "Uptime") 0 (B "100 200") 0, .border (B "+--------+---------+")])
      = [(B "foo", B "bar"), (B "uptime", B "100 200")] := by decide
  rw [e1, e2] at h
  exact h

/-! ## The interval filter -/

/-- C3: with interval filtering enabled and a baseline uptime recorded
(`prev_uptime` is not zero), let the candidate record (the bytes before the
first marker, at offset `e > 0`) hold the label `Uptime`, first at the end of
`pre`, followed by `mid` and a line feed, where the trimmed `mid` parses to `U1`
and `U1 - prev_uptime < interval.Seconds()`.  Then `skip_interval` returns true
and leaves `prev_uptime` as it is, and the split callback returns no token with
an advance just past the marker line (whose line feed is at offset `j`), again
with `prev_uptime` unchanged: the next candidate is compared with the same
baseline. -/
theorem too_fast_record_is_suppressed {F : Type} (ops : Float64Ops F) (interval : Int)
    (st : SplitState F) (data pre mid post : List Byte) (atEOF : Bool) (e j : Nat) (U1 : F)
    (hchk : check_intervals interval = true)
    (hbase : ops.isZero st.prev_uptime = false)
    (hmark : FirstAt (typecheck st data).recordmatch data e) (hpos : 0 < e)
    (hnl : FirstNLFrom data e j)
    (hrec : data.take e = pre ++ uptime_str ++ mid ++ NL :: post)
    (hlabel : FirstAt uptime_str (data.take e) pre.length) (hmid : NL ∉ mid)
    (hparse : ops.ParseFloat (Trim mid) = some U1)
    (hfast : ops.lt (ops.sub U1 st.prev_uptime) (ops.Seconds interval) = true) :
    skip_interval ops interval st.prev_uptime (data.take e) = some (true, st.prev_uptime) ∧
    ∃ st', splitFunc ops interval st data atEOF = some (st', (j : Int) + 1, none) ∧
      st'.prev_uptime = st.prev_uptime ∧ st'.recordmatch = (typecheck st data).recordmatch ∧
      st'.outputtype = (typecheck st data).outputtype := by
  have hskip : skip_interval ops interval st.prev_uptime (data.take e)
      = some (true, st.prev_uptime) := by
    rw [skip_interval_of_field ops interval st.prev_uptime _ pre mid post hrec hlabel hmid]
    simp [hbase, hparse, hfast]
  refine ⟨hskip, ?_⟩
  rw [splitFunc_found ops interval st data atEOF e hmark hpos, hchk,
    typecheck_prev_uptime, hskip, IndexByte_drop_of_firstNL hnl]
  have hadv : (e : Int) + ((j : Int) - e) + 1 = j + 1 := by ring
  rw [hadv]
  exact ⟨{ typecheck st data with prev_uptime := st.prev_uptime }, by simp, rfl, rfl, rfl⟩

/-- A witness for C3: TABULAR layout, baseline 100, a record of uptime 101 and an
interval of five seconds. -/
theorem too_fast_record_is_suppressed_witness :
    skip_interval decOps 5000000000 (⟨100, 0⟩ : Dec) (List.take 17
        (B "| Uptime | 101 |\n| Variable_name | Value |\n| Uptime | 102 |\n"))
      = some (true, ⟨100, 0⟩) ∧
    ∃ st', splitFunc decOps 5000000000 ⟨.TABULAR, true, B "| Variable_name", ⟨100, 0⟩⟩
        (B "| Uptime | 101 |\n| Variable_name | Value |\n| Uptime | 102 |\n") false
        = some (st', ((42 : Nat) : Int) + 1, none) ∧
      st'.prev_uptime = ⟨100, 0⟩ ∧ st'.recordmatch = B "| Variable_name" ∧
      st'.outputtype = .TABULAR :=
  too_fast_record_is_suppressed decOps 5000000000 ⟨.TABULAR, true, B "| Variable_name", ⟨100, 0⟩⟩
    (B "| Uptime | 101 |\n| Variable_name | Value |\n| Uptime | 102 |\n") (B "| ") (B " | 101 |") []
    false 17 42 ⟨101, 0⟩ (by decide) (by decide) (by decide) (by decide) (by decide) (by decide)
    (by decide) (by decide) (by decide) (by decide)

/-- C4, the code at the failing input: with the baseline 100 recorded and an
interval of five seconds, the record of uptime 110 is admitted (`skip_interval`
returns false) but `prev_uptime` is still 100 afterwards, not 110; so in the
stream of three TABULAR records with uptimes 100, 110 and 111, each followed
by a header line, the record of uptime 111 is published as well, although it
comes one second after the admitted record of uptime 110. -/
theorem admitted_record_leaves_baseline :
    skip_interval decOps 5000000000 (⟨100, 0⟩ : Dec) (B "| Uptime | 110 |\n")
      = some (false, ⟨100, 0⟩) ∧
    (parseSamples decOps (B "====") 5000000000
        [B ("| Variable_name | Value |\n| Uptime | 100 |\n" ++
            "| Variable_name | Value |\n| Uptime | 110 |\n" ++
            "| Variable_name | Value |\n| Uptime | 111 |\n" ++
            "| Variable_name | Value |\n")]).map
        (fun r => (r.published, r.final.prev_uptime))
      = some ([[(B "uptime", B "100")], [(B "uptime", B "110")], [(B "uptime", B "111")]],
          (⟨100, 0⟩ : Dec)) := by
  constructor
  · decide
  · decide!

/-- C5 fails as stated: with the baseline 100 recorded and an interval of five
seconds, the record `| Uptime | abc |` carries a value that does not parse, yet
`skip_interval` returns true and the record is skipped. -/
theorem malformed_uptime_skipped_counterexample :
    decOps.ParseFloat (Trim (B " | abc |")) = none ∧
    skip_interval decOps 5000000000 (⟨100, 0⟩ : Dec) (B "| Uptime | abc |\n")
      = some (true, ⟨100, 0⟩) := by
  decide

/-- C5 as amended: when the record holds the label `Uptime`, first at the end of
`pre`, followed by `mid` and a line feed, and the trimmed `mid` does not parse
as a number, the current uptime is taken as zero.  `skip_interval` then returns
false, and the record is admitted, when no baseline is recorded (`prev_uptime`
is zero); with a baseline recorded it returns true exactly when
`0 - prev_uptime < interval.Seconds()`, and leaves the baseline as it is. -/
theorem malformed_uptime_counts_as_zero {F : Type} (ops : Float64Ops F) (interval : Int)
    (prev : F) (record pre mid post : List Byte)
    (hrec : record = pre ++ uptime_str ++ mid ++ NL :: post)
    (hlabel : FirstAt uptime_str record pre.length) (hmid : NL ∉ mid)
    (hparse : ops.ParseFloat (Trim mid) = none) :
    skip_interval ops interval prev record =
      if ops.isZero prev then some (false, ops.zero)
      else some (ops.lt (ops.sub ops.zero prev) (ops.Seconds interval), prev) := by
  rw [skip_interval_of_field ops interval prev record pre mid post hrec hlabel hmid, hparse]
  simp only [Option.getD_none]
  split
  · rfl
  · split <;> simp_all

/-- A witness for the amended C5: no baseline recorded, the value `abc`. -/
theorem malformed_uptime_counts_as_zero_witness :
    skip_interval decOps 5000000000 (⟨0, 0⟩ : Dec) (B "| Uptime | abc |\n") =
      if decOps.isZero (⟨0, 0⟩ : Dec) then some (false, decOps.zero)
      else some (decOps.lt (decOps.sub decOps.zero ⟨0, 0⟩) (decOps.Seconds 5000000000), ⟨0, 0⟩) :=
  malformed_uptime_counts_as_zero decOps 5000000000 ⟨0, 0⟩ (B "| Uptime | abc |\n")
    (B "| ") (B " | abc |") [] (by decide) (by decide) (by decide) (by decide)

/-- C6, the code at the failing input: for an interval of 500ms the flag
`check_intervals` is true, since the interval is compared with 1000000
nanoseconds, one millisecond; and of two consecutive TABULAR records that both
carry the uptime 100, each followed by a header line, only the first is
published. -/
theorem half_second_interval_filters :
    check_intervals 500000000 = true ∧
    (parseSamples decOps (B "====") 500000000
        [B ("| Variable_name | Value |\n| Uptime | 100 |\n" ++
            "| Variable_name | Value |\n| Uptime | 100 |\n" ++
            "| Variable_name | Value |\n")]).map Run.published
      = some [[(B "uptime", B "100")]] := by
  constructor
  · decide
  · decide!

/-- C7, the code at the failing input: for the BATCH stream of the records with
uptimes 100 and 101, each followed by the marker line, and an interval of five
seconds, the text between the label and the line feed is a tab and the digits;
the tab is not trimmed, the text does not parse, and the uptime counts as
zero.  Both records are published and `prev_uptime` is zero at the end. -/
theorem batch_records_are_not_throttled :
    decOps.ParseFloat (Trim (B "\t100")) = none ∧
    (parseSamples decOps (B "====") 5000000000
        [B "foo\tbar\nUptime\t100\n====\nfoo\tbar\nUptime\t101\n====\n"]).map
        (fun r => (r.published, r.final.prev_uptime))
      = some ([[(B "foo", B "bar"), (B "uptime", B "100")],
               [(B "foo", B "bar"), (B "uptime", B "101")]], (⟨0, 0⟩ : Dec)) := by
  constructor
  · decide
  · decide!

set_option maxRecDepth 100000 in
/-- C8 fails as stated: with the baseline 100 recorded and an interval of five
seconds, the record of uptime 50 is not admitted: `skip_interval` returns true,
and the split callback returns no token for it. -/
theorem decreasing_uptime_counterexample :
    skip_interval decOps 5000000000 (⟨100, 0⟩ : Dec) (B "| Uptime | 50 |\n")
      = some (true, ⟨100, 0⟩) ∧
    (splitFunc decOps 5000000000 ⟨.TABULAR, true, B "| Variable_name", ⟨100, 0⟩⟩
        (B "| Uptime | 50 |\n| Variable_name | Value |\n") false).map
        (fun r => (r.2.1, r.2.2))
      = some (42, none) := by
  decide

/-- C8 as amended: with a baseline recorded (`prev_uptime` is not zero), a
candidate record whose Uptime field parses to a value `U1 < prev_uptime` is
skipped: `skip_interval` returns true and leaves the baseline, provided that in
the arithmetic at hand the difference of a smaller and a larger number is
below `interval.Seconds()`, as it is for every positive interval. -/
theorem decreasing_uptime_is_skipped {F : Type} (ops : Float64Ops F) (interval : Int)
    (prev : F) (record pre mid post : List Byte) (U1 : F)
    (hrec : record = pre ++ uptime_str ++ mid ++ NL :: post)
    (hlabel : FirstAt uptime_str record pre.length) (hmid : NL ∉ mid)
    (hparse : ops.ParseFloat (Trim mid) = some U1)
    (hbase : ops.isZero prev = false)
    (hdecr : ops.lt U1 prev = true)
    (harith : ∀ a b, ops.lt a b = true → ops.lt (ops.sub a b) (ops.Seconds interval) = true) :
    skip_interval ops interval prev record = some (true, prev) := by
  rw [skip_interval_of_field ops interval prev record pre mid post hrec hlabel hmid, hparse]
  simp [hbase, harith U1 prev hdecr]

/-- A witness for the amended C8: baseline 100, uptime 50, five seconds, in exact
decimal arithmetic. -/
theorem decreasing_uptime_is_skipped_witness :
    skip_interval decOps 5000000000 (⟨100, 0⟩ : Dec) (B "| Uptime | 50 |\n")
      = some (true, ⟨100, 0⟩) :=
  decreasing_uptime_is_skipped decOps 5000000000 ⟨100, 0⟩ (B "| Uptime | 50 |\n")
    (B "| ") (B " | 50 |") [] ⟨50, 0⟩ (by decide) (by decide) (by decide) (by decide)
    (by decide) (by decide) (decOps_sub_lt 5000000000 (by decide))

/-- C9 fails as stated: the stream below begins with a header line and holds the
text `| Variable_name` nowhere else, but its data row has the key
`VARIABLE_NAME`, so the Sample published has the key `variable_name`. -/
theorem header_key_counterexample :
    FirstAt (B "| Variable_name")
      (B "| Variable_name | Value |\n| VARIABLE_NAME | bar |\n") 0 ∧
    ¬ B "| Variable_name" <:+:
      List.drop 1 (B "| Variable_name | Value |\n| VARIABLE_NAME | bar |\n") ∧
    (parseSamples decOps (B "====") 0
        [B "| Variable_name | Value |\n| VARIABLE_NAME | bar |\n"]).map Run.published
      = some [[(B "variable_name", B "bar")]] ∧
    MyqSample.get? [(B "variable_name", B "bar")] (B "variable_name") = some (B "bar") := by
  refine ⟨by decide, by decide, by decide!, by decide⟩

/-- C9 as amended: for a stream that begins with a header line `| Variable_name ...`
followed by the lines of a well-formed TABULAR record with at least one row,
in which the text `| Variable_name` does not occur, the split callback sets the
layout TABULAR, finds the marker at offset zero and advances past the header
line without a token; at the end of the stream it returns the remaining lines
as one record; one Sample is published, in whatever chunks the reader delivers
the stream, and it is built from the data rows only, by assigning the value of
each row to the lower-case form of its key, in the order of the rows: no two of
its entries share a key, its keys are exactly the lower-case forms of the keys
of the data rows, and each is mapped to the value of the last row with that
key, ignoring case.  So it has the key `variable_name` only if a data row has a key whose
lower-case form is `variable_name`. -/
theorem tabular_header_is_boundary [Lowering] {F : Type} (ops : Float64Ops F)
    (END_STRING htail : List Byte) (interval : Int) (lines : List TabLine) (d : Nat)
    (atEOF : Bool)
    (hhead : NL ∉ htail)
    (hwf : ∀ l ∈ lines, l.WellFormed d) (hN : tabRows lines ≠ [])
    (hno : ¬ B "| Variable_name" <:+: joinLines (lines.map TabLine.bytes)) :
    splitFunc ops interval ⟨BATCH, false, END_STRING, ops.zero⟩
        (B "| Variable_name" ++ htail ++ NL :: joinLines (lines.map TabLine.bytes)) atEOF
      = some (⟨TABULAR, true, B "| Variable_name", ops.zero⟩,
          (((B "| Variable_name" ++ htail).length + 1 : Nat) : Int), none) ∧
    splitFunc ops interval ⟨TABULAR, true, B "| Variable_name", ops.zero⟩
        (joinLines (lines.map TabLine.bytes)) true
      = some (⟨TABULAR, true, B "| Variable_name", ops.zero⟩,
          ((joinLines (lines.map TabLine.bytes)).length : Int),
          some (joinLines (lines.map TabLine.bytes))) ∧
    (∀ chunks : List (List Byte),
      chunks.flatten
        = B "| Variable_name" ++ htail ++ NL :: joinLines (lines.map TabLine.bytes) →
      (parseSamples ops END_STRING interval chunks).map Run.published
        = some [setAll [] (lowerKeys (tabRows lines))]) ∧
    ((setAll [] (lowerKeys (tabRows lines))).map Prod.fst).Nodup ∧
    (∀ k, k ∈ (setAll [] (lowerKeys (tabRows lines))).map Prod.fst
      ↔ ∃ kv ∈ tabRows lines, k = ToLower kv.1) ∧
    (∀ (pre post : List (List Byte × List Byte)) (kv : List Byte × List Byte),
      tabRows lines = pre ++ kv :: post →
      (∀ kv' ∈ post, ToLower kv'.1 ≠ ToLower kv.1) →
      (setAll [] (lowerKeys (tabRows lines))).get? (ToLower kv.1) = some kv.2) ∧
    ((∀ kv ∈ tabRows lines, ToLower kv.1 ≠ B "variable_name") →
      (setAll [] (lowerKeys (tabRows lines))).get? (B "variable_name") = none) := by
  have hkeys := setAll_lowerKeys (tabRows lines)
  have hmarknl : NL ∉ B "| Variable_name" := by decide
  have hrestne : joinLines (lines.map TabLine.bytes) ≠ [] := by
    intro h
    have h0 : tabRows lines = [] := by
      cases lines with
      | nil => rfl
      | cons l ls => simp [joinLines] at h
    exact hN h0
  generalize hrest : joinLines (lines.map TabLine.bytes) = rest at *
  generalize hheader : B "| Variable_name" ++ htail = header
  have hheadnl : NL ∉ header := by
    rw [← hheader]; simp only [List.mem_append, not_or]; exact ⟨hmarknl, hhead⟩
  have hpre : B "| Variable_name" <+: header ++ NL :: rest := by
    rw [← hheader, List.append_assoc]; exact List.prefix_append _ _
  have hpipe : HasPrefix (header ++ NL :: rest) (B "|") = true := by
    rw [← hheader]
    have : B "| Variable_name" = PIPE :: B " Variable_name" := by decide
    rw [this, B_pipe]; simp [HasPrefix]
  have htc : typecheck (⟨BATCH, false, END_STRING, ops.zero⟩ : SplitState F)
      (header ++ NL :: rest) = ⟨TABULAR, true, B "| Variable_name", ops.zero⟩ := by
    simp [typecheck, hpipe]
  have hsplit1 : ∀ eof, splitFunc ops interval ⟨BATCH, false, END_STRING, ops.zero⟩
      (header ++ NL :: rest) eof
      = some (⟨TABULAR, true, B "| Variable_name", ops.zero⟩,
          ((header.length + 1 : Nat) : Int), none) := by
    intro eof
    rw [splitFunc_marker_first ops interval _ _ eof (by rw [htc]; exact hpre), htc,
      IndexByte_append hheadnl]
    simp
  have hsplit2 : splitFunc ops interval ⟨TABULAR, true, B "| Variable_name", ops.zero⟩ rest true
      = some (⟨TABULAR, true, B "| Variable_name", ops.zero⟩, ((rest.length : Nat) : Int),
          some rest) := by
    have hpos : 0 < rest.length := List.length_pos.mpr hrestne
    rw [splitFunc_no_marker ops interval _ rest true
      (by rw [typecheck_of_checked _ _ rfl]; exact hno), typecheck_of_checked _ _ rfl]
    simp [hpos]
  have hparse : parseBatch rest TABULAR = some [setAll [] (lowerKeys (tabRows lines))] := by
    rw [← hrest]; exact parseBatch_tabular_rows lines d hwf hN
  refine ⟨hsplit1 atEOF, hsplit2, ?_, hkeys.1, hkeys.2.1, hkeys.2.2, ?_⟩
  · intro chunks hchunks
    have hrun := scanLoop_header_record ops interval END_STRING header rest
      [setAll [] (lowerKeys (tabRows lines))]
      (by rw [← hheader]; exact List.prefix_append _ _) hheadnl
      hrestne hno hparse chunks [] ⟨BATCH, false, END_STRING, ops.zero⟩
      (2 * (chunks.flatten.length + chunks.length) + 4)
      (by rw [List.nil_append, hchunks]; simp) (Or.inl rfl) (by omega)
    unfold parseSamples
    rw [hrun]
    rfl
  · intro hnokey
    rw [MyqSample.get?_eq_none_iff, hkeys.2.1]
    rintro ⟨kv, hkv, hk⟩
    exact hnokey kv hkv hk.symm

/-- A witness for the amended C9: the stream
`| Variable_name | Value |\n| foo | bar |\n` publishes exactly {foo: bar}. -/
theorem tabular_header_is_boundary_witness :
    (parseSamples decOps (B "====") 0
        [B "| Variable_name | Value |\n| foo | bar |\n"]).map Run.published
      = some [[(B "foo", B "bar")]] :=
  (tabular_header_is_boundary decOps (B "====") (B " | Value |") 0
    [.row (B "foo") 0 (B "bar") 0] 5 false
    (by decide) (by decide) (by decide) (by decide)).2.2.1
    [B "| Variable_name | Value |\n| foo | bar |\n"] (by decide)

/-! ## The boundary scan -/

/-- C10: when the record marker first occurs in `data` at an offset `e > 0`, the
first line feed at or after `e` is at offset `j`, and the interval filter does
not skip (filtering is disabled, or `skip_interval` returns false on the bytes
before the marker), the split callback returns the token `data[0:e]` and the
advance `j + 1`. -/
theorem split_returns_record_before_marker {F : Type} (ops : Float64Ops F) (interval : Int)
    (st : SplitState F) (data : List Byte) (atEOF : Bool) (e j : Nat)
    (hmark : FirstAt (typecheck st data).recordmatch data e) (hpos : 0 < e)
    (hnl : FirstNLFrom data e j)
    (hnoskip : check_intervals interval = false ∨
      ∃ p, skip_interval ops interval (typecheck st data).prev_uptime (data.take e)
        = some (false, p)) :
    ∃ st', splitFunc ops interval st data atEOF
        = some (st', (j : Int) + 1, some (data.take e)) ∧
      st'.recordmatch = (typecheck st data).recordmatch ∧
      st'.outputtype = (typecheck st data).outputtype := by
  have hadv : (e : Int) + ((j : Int) - e) + 1 = j + 1 := by ring
  rw [splitFunc_found ops interval st data atEOF e hmark hpos, IndexByte_drop_of_firstNL hnl, hadv]
  rcases hnoskip with h | ⟨p, hp⟩
  · exact ⟨typecheck st data, by simp [h], rfl, rfl⟩
  · rw [hp]
    cases hc : check_intervals interval
    · exact ⟨typecheck st data, by simp, rfl, rfl⟩
    · exact ⟨{ typecheck st data with prev_uptime := p }, by simp, rfl, rfl⟩

/-- A witness for C10: a BATCH buffer holding one record, its marker line and the
start of the next record, with filtering disabled. -/
theorem split_returns_record_before_marker_witness :
    ∃ st', splitFunc decOps 0 ⟨.BATCH, false, B "====", ⟨0, 0⟩⟩
        (B "foo\tbar\nUptime\t100\n==== end\nfoo\tb") false
        = some (st', ((27 : Nat) : Int) + 1,
            some (List.take 19 (B "foo\tbar\nUptime\t100\n==== end\nfoo\tb"))) ∧
      st'.recordmatch = (typecheck (⟨.BATCH, false, B "====", ⟨0, 0⟩⟩ : SplitState Dec)
        (B "foo\tbar\nUptime\t100\n==== end\nfoo\tb")).recordmatch ∧
      st'.outputtype = (typecheck (⟨.BATCH, false, B "====", ⟨0, 0⟩⟩ : SplitState Dec)
        (B "foo\tbar\nUptime\t100\n==== end\nfoo\tb")).outputtype :=
  split_returns_record_before_marker decOps 0 ⟨.BATCH, false, B "====", ⟨0, 0⟩⟩
    (B "foo\tbar\nUptime\t100\n==== end\nfoo\tb") false 19 27 (by decide) (by decide) (by decide)
    (Or.inl (by decide))

/-! ## The layout check -/

/-- C11: whenever the split callback returns, the layout check is marked as done
in the state it returns.  If it was not done before (the first invocation), the
layout is TABULAR with the marker `| Variable_name` when the data begins with
`+` or `|`, and the layout and marker of the state before (BATCH and the
end-of-record marker, as `parseSamples` sets them) otherwise.  If it was done
before, layout and marker are unchanged, whatever the data begins with.  And
every run of the scanner loop from the returned state ends with the same
layout and marker. -/
theorem layout_is_classified_once [Lowering] {F : Type} (ops : Float64Ops F) (interval : Int)
    (st : SplitState F) (data : List Byte) (atEOF : Bool)
    (r : SplitState F × Int × Option (List Byte))
    (h : splitFunc ops interval st data atEOF = some r) :
    r.1.typechecked = true ∧
    (st.typechecked = false →
      ((HasPrefix data (B "+") || HasPrefix data (B "|")) = true →
        r.1.outputtype = TABULAR ∧ r.1.recordmatch = B "| Variable_name") ∧
      ((HasPrefix data (B "+") || HasPrefix data (B "|")) = false →
        r.1.outputtype = st.outputtype ∧ r.1.recordmatch = st.recordmatch)) ∧
    (st.typechecked = true →
      r.1.outputtype = st.outputtype ∧ r.1.recordmatch = st.recordmatch) ∧
    (∀ (fuel : Nat) (buf : List Byte) (pending : List (List Byte)) (eof : Bool)
        (out : List MyqSample) (run : Run F),
      scanLoop ops interval fuel r.1 buf pending eof out = some run →
      run.final.outputtype = r.1.outputtype ∧ run.final.recordmatch = r.1.recordmatch) := by
  obtain ⟨h1, h2, h3⟩ := splitFunc_layout ops interval st data atEOF r h
  refine ⟨h3, ?_, ?_, ?_⟩
  · intro hst
    constructor
    · intro hp
      rw [h1, h2]
      simp [typecheck, hst, hp]
    · intro hp
      rw [h1, h2]
      simp [typecheck, hst, hp]
  · intro hst
    rw [h1, h2, typecheck_of_checked st data hst]
    exact ⟨rfl, rfl⟩
  · intro fuel buf pending eof out run hrun
    exact scanLoop_layout ops interval fuel r.1 buf pending eof out run h3 hrun

set_option maxRecDepth 100000 in
/-- A witness for C11: in a BATCH stream, after the layout check, a buffer that
begins with `|` is scanned with the layout BATCH and the marker `====`; and
the stream `a\tb\n====\n|c\td\n====\n` gives the Samples {a: b} and {|c: d}. -/
theorem layout_is_classified_once_witness :
    splitFunc decOps 0 ⟨BATCH, true, B "====", ⟨0, 0⟩⟩ (B "|c\td\n====\n") false
      = some (⟨BATCH, true, B "====", ⟨0, 0⟩⟩, 10, some (B "|c\td\n")) ∧
    HasPrefix (B "|c\td\n====\n") (B "|") = true ∧
    ((⟨BATCH, true, B "====", ⟨0, 0⟩⟩ : SplitState Dec).outputtype = BATCH ∧
      (⟨BATCH, true, B "====", ⟨0, 0⟩⟩ : SplitState Dec).recordmatch = B "====") ∧
    (parseSamples decOps (B "====") 0 [B "a\tb\n====\n|c\td\n====\n"]).map Run.published
      = some [[(B "a", B "b")], [(B "|c", B "d")]] :=
  ⟨by decide, by decide,
    (layout_is_classified_once decOps 0 ⟨BATCH, true, B "====", ⟨0, 0⟩⟩ (B "|c\td\n====\n") false
      (⟨BATCH, true, B "====", ⟨0, 0⟩⟩, 10, some (B "|c\td\n")) (by decide)).2.2.1 rfl,
    by decide⟩

/-! ## The Sample of a record -/

/-- C12: whenever `parseBatch` builds a Sample `m` from a record, in either
layout, `m` has one entry per key, and for the keys and values `fs` that the
lines of the record yield, in order: if the line of `kv` is the last whose key
equals the key of `kv` ignoring case (no later line has a key with the same
lower-case form), then `m` maps the lower-case form of that key to the value
of `kv`. -/
theorem key_case_last_line_wins [Lowering] (outputtype : showoutputtype) (buffer : List Byte)
    (m : MyqSample) (h : buildSample outputtype buffer = some m) :
    ∃ fs, fields outputtype 0 (ScanLines buffer) = some fs ∧
      (m.map Prod.fst).Nodup ∧
      ∀ (pre post : List (List Byte × List Byte)) (kv : List Byte × List Byte),
        fs = pre ++ kv :: post → (∀ kv' ∈ post, ToLower kv'.1 ≠ ToLower kv.1) →
        m.get? (ToLower kv.1) = some kv.2 := by
  obtain ⟨fs, hfs, hm, hnd, _⟩ := buildSample_keys h
  refine ⟨fs, hfs, hnd, ?_⟩
  intro pre post kv hsplit hlast
  rw [hm, hsplit]
  have : lowerKeys (pre ++ kv :: post)
      = lowerKeys pre ++ (ToLower kv.1, kv.2) :: lowerKeys post := by
    simp [lowerKeys]
  rw [this]
  exact setAll_last_wins [] (lowerKeys pre) (lowerKeys post) (ToLower kv.1, kv.2) (by
    intro kv' hkv'
    simp only [lowerKeys, List.mem_map] at hkv'
    obtain ⟨x, hx, rfl⟩ := hkv'
    exact hlast x hx)

/-- A witness for C12: the BATCH record with the keys `Threads_connected`, `foo`
and `threads_connected` gives {threads_connected: 2, foo: x}. -/
theorem key_case_last_line_wins_witness :
    buildSample BATCH (B "Threads_connected\t1\nfoo\tx\nthreads_connected\t2\n")
      = some [(B "threads_connected", B "2"), (B "foo", B "x")] ∧
    ∃ fs, fields BATCH 0 (ScanLines (B "Threads_connected\t1\nfoo\tx\nthreads_connected\t2\n"))
        = some fs ∧
      (List.map Prod.fst [(B "threads_connected", B "2"), (B "foo", B "x")]).Nodup ∧
      ∀ (pre post : List (List Byte × List Byte)) (kv : List Byte × List Byte),
        fs = pre ++ kv :: post → (∀ kv' ∈ post, ToLower kv'.1 ≠ ToLower kv.1) →
        MyqSample.get? [(B "threads_connected", B "2"), (B "foo", B "x")] (ToLower kv.1)
          = some kv.2 :=
  ⟨by decide, key_case_last_line_wins BATCH
    (B "Threads_connected\t1\nfoo\tx\nthreads_connected\t2\n")
    [(B "threads_connected", B "2"), (B "foo", B "x")] (by decide)⟩

/-- C13 fails as stated: the TABULAR record `| foo | bar |` has its divider at
offset 5; the line `|abcdefgh` starts with a pipe and has no divider, yet put
after the row it is cut at offset 5 and adds the key `abcd`. -/
theorem line_without_divider_counterexample :
    HasPrefix (B "|abcdefgh") (B "|") = true ∧ ¬ B " | " <:+: B "|abcdefgh" ∧
    buildSample TABULAR (B "| foo | bar |\n") = some [(B "foo", B "bar")] ∧
    buildSample TABULAR (B "| foo | bar |\n" ++ B "|abcdefgh" ++ NL :: [])
      = some [(B "foo", B "bar"), (B "abcd", B "efgh")] ∧
    parseBatch (B "| foo | bar |\n" ++ B "|abcdefgh" ++ NL :: []) TABULAR
      ≠ parseBatch (B "| foo | bar |\n") TABULAR := by
  refine ⟨by decide, by decide, by decide, by decide, by decide⟩

/-- C13 as amended: a line without line feed is put into a record at the start
of a line.  In layout BATCH, if the line does not split on the tab into
exactly two fields, `parseBatch` completes normally and builds and sends what
it does for the record without the line.  In layout TABULAR, if the loop has
reached the state `s` before the line and the line, as the scanner returns it,
is shorter than the divider offset `s.divideridx` found on an earlier row, the
same holds: the result with the line is the result without it.  If the line
starts with the pipe and is at least as long as that offset, also when it is
exactly as long, it is not discarded, whether it holds a divider or not: it is
cut at the offset, the trimmed first half in lower case is the key and the
trimmed second half the value of an assignment to the Sample, which adds an
entry or overwrites the entry of that key, and the loop goes on with the lines
after it. -/
theorem malformed_line_is_discarded [Lowering] (before after line : List Byte)
    (hstart : LineStart before) (hline : NL ∉ line) :
    ((Split line TAB).length ≠ 2 →
      (∃ m, buildSample BATCH (before ++ line ++ NL :: after) = some m) ∧
      buildSample BATCH (before ++ line ++ NL :: after) = buildSample BATCH (before ++ after) ∧
      parseBatch (before ++ line ++ NL :: after) BATCH = parseBatch (before ++ after) BATCH) ∧
    (∀ s, parseLines TABULAR ⟨0, []⟩ (ScanLines before) = some s →
      ((dropCR line).length : Int) < s.divideridx →
      buildSample TABULAR (before ++ line ++ NL :: after)
        = buildSample TABULAR (before ++ after) ∧
      parseBatch (before ++ line ++ NL :: after) TABULAR
        = parseBatch (before ++ after) TABULAR) ∧
    (∀ s, parseLines TABULAR ⟨0, []⟩ (ScanLines before) = some s →
      0 < s.divideridx → HasPrefix (dropCR line) (B "|") = true →
      s.divideridx ≤ ((dropCR line).length : Int) →
      parseLine TABULAR s (dropCR line)
        = some ⟨s.divideridx,
            s.timesample.set (ToLower (Trim ((dropCR line).take s.divideridx.toNat)))
              (Trim ((dropCR line).drop s.divideridx.toNat))⟩ ∧
      buildSample TABULAR (before ++ line ++ NL :: [])
        = some (s.timesample.set (ToLower (Trim ((dropCR line).take s.divideridx.toNat)))
            (Trim ((dropCR line).drop s.divideridx.toNat))) ∧
      (s.timesample.set (ToLower (Trim ((dropCR line).take s.divideridx.toNat)))
          (Trim ((dropCR line).drop s.divideridx.toNat))).get?
            (ToLower (Trim ((dropCR line).take s.divideridx.toNat)))
        = some (Trim ((dropCR line).drop s.divideridx.toNat)) ∧
      buildSample TABULAR (before ++ line ++ NL :: after)
        = (parseLines TABULAR
            ⟨s.divideridx,
              s.timesample.set (ToLower (Trim ((dropCR line).take s.divideridx.toNat)))
                (Trim ((dropCR line).drop s.divideridx.toNat))⟩
            (ScanLines after)).map BatchState.timesample) := by
  refine ⟨?_, ?_, ?_⟩
  · intro hsplit
    have hb : buildSample BATCH (before ++ line ++ NL :: after)
        = buildSample BATCH (before ++ after) :=
      buildSample_insert BATCH before after line hstart hline (fun s _ =>
        parseLine_batch_skip s _ (by
          rw [Split_length, count_dropCR, ← Split_length]; exact hsplit))
    exact ⟨buildSample_batch_some _, hb, parseBatch_congr hb⟩
  · intro s hs hshort
    have hb : buildSample TABULAR (before ++ line ++ NL :: after)
        = buildSample TABULAR (before ++ after) :=
      buildSample_insert TABULAR before after line hstart hline (fun s' hs' => by
        rw [hs] at hs'
        simp only [Option.some.injEq] at hs'
        subst hs'
        exact parseLine_tabular_short s _ hshort)
    exact ⟨hb, parseBatch_congr hb⟩
  · intro s hs hpos hpipe hlen
    have hcut := parseLine_tabular_cut s (dropCR line) hpos hpipe hlen
    refine ⟨hcut, ?_, MyqSample.get?_set_self _ _ _, ?_⟩
    · unfold buildSample
      rw [parseLines_insert TABULAR before [] line hstart hline s _ hs hcut]
      rfl
    · unfold buildSample
      rw [parseLines_insert TABULAR before after line hstart hline s _ hs hcut]

/-- A witness for the amended C13: in a BATCH record a line with two tabs; in a
TABULAR record with the divider at offset 5 the line `| fo`, of length 4, is
discarded and the line `| foo`, of length 5, is cut into the key `foo` and the
empty value, which overwrites the entry of `foo`. -/
theorem malformed_line_is_discarded_witness :
    parseBatch (B "a\tb\n" ++ B "x\ty\tz" ++ NL :: B "c\td\n") BATCH
      = parseBatch (B "a\tb\n" ++ B "c\td\n") BATCH ∧
    parseBatch (B "| foo | bar |\n" ++ B "| fo" ++ NL :: B "| baz | 1   |\n") TABULAR
      = parseBatch (B "| foo | bar |\n" ++ B "| baz | 1   |\n") TABULAR ∧
    buildSample TABULAR (B "| foo | bar |\n" ++ B "| foo" ++ NL :: [])
      = some [(B "foo", B "")] :=
  ⟨((malformed_line_is_discarded (B "a\tb\n") (B "c\td\n") (B "x\ty\tz") (by decide)
      (by decide)).1 (by decide)).2.2,
    ((malformed_line_is_discarded (B "| foo | bar |\n") (B "| baz | 1   |\n") (B "| fo")
      (by decide) (by decide)).2.1 ⟨5, [(B "foo", B "bar")]⟩ (by decide) (by decide)).2,
    ((malformed_line_is_discarded (B "| foo | bar |\n") [] (B "| foo")
      (by decide) (by decide)).2.2 ⟨5, [(B "foo", B "bar")]⟩ (by decide) (by decide)
      (by decide) (by decide)).2.1⟩

/-- C14 fails as stated: in layout BATCH a line that is a single tab splits into
two empty fields, so the record made of that line alone gives a Sample with
the empty key, and the line of a space, a tab and a space put after the line
`a\tb` adds the key of one space. -/
theorem blank_line_counterexample :
    Blank (B "\t") ∧ Blank (B " \t ") ∧
    buildSample BATCH (B "\t\n") = some [([], [])] ∧
    parseBatch (B "\t\n") BATCH = some [[([], [])]] ∧
    buildSample BATCH (B "a\tb\n") = some [(B "a", B "b")] ∧
    buildSample BATCH (B "a\tb\n" ++ B " \t " ++ NL :: [])
      = some [(B "a", B "b"), (B " ", B " ")] := by
  refine ⟨by decide, by decide, by decide, by decide, by decide, by decide⟩

/-- C14 as amended: a line that is empty or made of spaces and tabs only, and
that in layout BATCH does not hold exactly one tab, put into a record at the
start of a line leaves what `parseBatch` builds and sends unchanged; and a
record made only of such lines gives a Sample with zero keys, which is not
sent. -/
theorem blank_line_adds_no_key [Lowering] (outputtype : showoutputtype) (before after line : List Byte)
    (lines : List (List Byte))
    (hstart : LineStart before) (hblank : Blank line)
    (htabs : outputtype = BATCH → line.count TAB ≠ 1)
    (hlines : ∀ l ∈ lines, Blank l ∧ (outputtype = BATCH → l.count TAB ≠ 1)) :
    buildSample outputtype (before ++ line ++ NL :: after)
      = buildSample outputtype (before ++ after) ∧
    parseBatch (before ++ line ++ NL :: after) outputtype
      = parseBatch (before ++ after) outputtype ∧
    buildSample outputtype (joinLines lines) = some [] ∧
    parseBatch (joinLines lines) outputtype = some [] := by
  have hb : buildSample outputtype (before ++ line ++ NL :: after)
      = buildSample outputtype (before ++ after) :=
    buildSample_insert outputtype before after line hstart (Blank_facts hblank).1 (fun s _ => by
      rw [(Blank_facts hblank).2.1]
      exact parseLine_blank outputtype s line hblank htabs)
  have hall : buildSample outputtype (joinLines lines) = some [] := by
    have hnl : ∀ l ∈ lines, NL ∉ l := fun l hl => (Blank_facts (hlines l hl).1).1
    have hcr : lines.map dropCR = lines := by
      have h1 : lines.map dropCR = lines.map id :=
        List.map_congr_left (fun l hl => (Blank_facts (hlines l hl).1).2.1)
      rw [h1, List.map_id]
    unfold buildSample
    rw [ScanLines_joinLines lines hnl, hcr]
    have : ∀ (ls : List (List Byte)) (s : BatchState),
        (∀ l ∈ ls, Blank l ∧ (outputtype = BATCH → l.count TAB ≠ 1)) →
        parseLines outputtype s ls = some s := by
      intro ls
      induction ls with
      | nil => intro s _; rfl
      | cons l ls ih =>
        intro s h
        rw [parseLines, parseLine_blank outputtype s l (h l (by simp)).1 (h l (by simp)).2]
        exact ih s (fun l' hl' => h l' (by simp [hl']))
    rw [this lines _ hlines]
    rfl
  refine ⟨hb, parseBatch_congr hb, hall, ?_⟩
  unfold parseBatch
  rw [hall]
  rfl

/-- A witness for the amended C14: a line of two spaces in a BATCH record, and a
record of blank lines. -/
theorem blank_line_adds_no_key_witness :
    parseBatch (B "a\tb\n" ++ B "  " ++ NL :: B "c\td\n") BATCH
      = parseBatch (B "a\tb\n" ++ B "c\td\n") BATCH ∧
    parseBatch (joinLines [B "", B "  ", B "\t\t", B " "]) BATCH = some [] :=
  ⟨(blank_line_adds_no_key BATCH (B "a\tb\n") (B "c\td\n") (B "  ")
      [B "", B "  ", B "\t\t", B " "] (by decide) (by decide) (by decide) (by decide)).2.1,
    (blank_line_adds_no_key BATCH (B "a\tb\n") (B "c\td\n") (B "  ")
      [B "", B "  ", B "\t\t", B " "] (by decide) (by decide) (by decide) (by decide)).2.2.2⟩

/-- C15: for every record and layout, the list of Samples that `parseBatch` sends
has at most one member; a Sample is sent exactly when the record is parsed to
a Sample with at least one key, and it is that Sample; and when every round of
the loop discards its line, `parseBatch` ends normally and sends nothing. -/
theorem empty_sample_is_not_published [Lowering] (outputtype : showoutputtype) (buffer : List Byte) :
    (∀ sends, parseBatch buffer outputtype = some sends → sends.length ≤ 1) ∧
    (∀ m, parseBatch buffer outputtype = some [m] ↔
      (buildSample outputtype buffer = some m ∧ 0 < m.Length)) ∧
    (parseBatch buffer outputtype = some [] ↔ buildSample outputtype buffer = some []) ∧
    (parseBatch buffer outputtype = none ↔ buildSample outputtype buffer = none) ∧
    ((∀ line ∈ ScanLines buffer, lineField outputtype 0 line = some (0, none)) →
      parseBatch buffer outputtype = some []) := by
  unfold parseBatch
  refine ⟨?_, ?_, ?_, ?_, ?_⟩
  · intro sends h
    cases hb : buildSample outputtype buffer with
    | none => rw [hb] at h; simp at h
    | some m =>
      rw [hb] at h
      simp only [] at h
      split at h <;> simp at h <;> subst h <;> simp
  · intro m
    cases hb : buildSample outputtype buffer with
    | none => simp
    | some m' =>
      simp only [Option.some.injEq]
      by_cases hl : m'.Length > 0
      · simp only [hl, if_true, Option.some.injEq, List.cons.injEq, and_true]
        constructor
        · intro h; subst h; exact ⟨rfl, hl⟩
        · intro h; exact h.1
      · simp only [hl, if_false, Option.some.injEq]
        constructor
        · intro h; simp at h
        · intro h; exact absurd (h.1 ▸ h.2) hl
  · cases hb : buildSample outputtype buffer with
    | none => simp
    | some m' =>
      simp only [Option.some.injEq]
      by_cases hl : m'.Length > 0
      · simp only [hl, if_true, Option.some.injEq]
        constructor
        · intro h; simp at h
        · intro h; subst h; simp [MyqSample.Length] at hl
      · simp only [hl, if_false, true_iff]
        simp only [MyqSample.Length, gt_iff_lt, List.length_pos, ne_eq, not_not] at hl
        exact hl
  · cases hb : buildSample outputtype buffer with
    | none => simp
    | some m' =>
      simp only []
      split <;> simp
  · intro h
    rw [buildSample_eq_fields, fields_of_discarded outputtype _ h]
    rfl

/-- A witness for C15: a BATCH record of an empty line, a line without tab and a
line with two tabs sends nothing. -/
theorem empty_sample_is_not_published_witness :
    parseBatch (B "\nno tab here\na\tb\tc\n") BATCH = some [] :=
  (empty_sample_is_not_published BATCH (B "\nno tab here\na\tb\tc\n")).2.2.2.2 (by decide)

/-- C16: whenever `parseBatch` builds a Sample from a record, well-formed or not,
in either layout, every key of the Sample is its own lower-case form and no
two entries have keys that are equal ignoring case; so it is for a Sample
that `parseBatch` sends.  The one property of `strings.ToLower` that this
rests on is that lowering a lowered text changes nothing. -/
theorem sample_keys_are_lowercase [Lowering] (outputtype : showoutputtype) (buffer : List Byte)
    (hidem : ∀ s : List Byte, ToLower (ToLower s) = ToLower s) :
    (∀ m, buildSample outputtype buffer = some m →
      (∀ kv ∈ m, ToLower kv.1 = kv.1) ∧ (m.map (fun kv => ToLower kv.1)).Nodup) ∧
    (∀ sends, parseBatch buffer outputtype = some sends → ∀ m ∈ sends,
      (∀ kv ∈ m, ToLower kv.1 = kv.1) ∧ (m.map (fun kv => ToLower kv.1)).Nodup) := by
  have key : ∀ m, buildSample outputtype buffer = some m →
      (∀ kv ∈ m, ToLower kv.1 = kv.1) ∧ (m.map (fun kv => ToLower kv.1)).Nodup := by
    intro m h
    obtain ⟨fs, _, _, hnd, hlow⟩ := buildSample_keys h
    have h1 : ∀ kv ∈ m, ToLower kv.1 = kv.1 := by
      intro kv hkv
      obtain ⟨raw, _, hraw⟩ := hlow kv.1 (List.mem_map_of_mem Prod.fst hkv)
      rw [hraw]; exact hidem _
    refine ⟨h1, ?_⟩
    have : m.map (fun kv => ToLower kv.1) = m.map Prod.fst :=
      List.map_congr_left (fun kv hkv => h1 kv hkv)
    rw [this]; exact hnd
  refine ⟨key, ?_⟩
  intro sends hs m hm
  unfold parseBatch at hs
  cases hb : buildSample outputtype buffer with
  | none => rw [hb] at hs; simp at hs
  | some m' =>
    rw [hb] at hs
    simp only [] at hs
    split at hs
    · simp only [Option.some.injEq] at hs
      subst hs
      simp only [List.mem_singleton] at hm
      subst hm
      exact key _ hb
    · simp only [Option.some.injEq] at hs
      subst hs
      simp at hm

/-- A witness for C16: a TABULAR record with keys in upper and mixed case, on
ASCII text. -/
theorem sample_keys_are_lowercase_witness :
    buildSample TABULAR (B "| FOO | 1 |\n| Bar | x |\n| foo | 2 |\n")
      = some [(B "foo", B "2"), (B "bar", B "x")] ∧
    (∀ kv ∈ [(B "foo", B "2"), (B "bar", B "x")], ToLower kv.1 = kv.1) ∧
    (List.map (fun kv => ToLower kv.1) [(B "foo", B "2"), (B "bar", B "x")]).Nodup :=
  ⟨by decide,
    (sample_keys_are_lowercase TABULAR (B "| FOO | 1 |\n| Bar | x |\n| foo | 2 |\n")
      asciiLowering_idem).1 [(B "foo", B "2"), (B "bar", B "x")] (by decide)⟩

/-! ## The split callback and the scanner -/

/-- C17: when the buffer does not hold the record marker, the split callback
returns the whole buffer as token with advance `len(data)` if `atEOF` is true
and the buffer is not empty, and advance 0 without a token in every other
case. -/
theorem split_without_marker {F : Type} (ops : Float64Ops F) (interval : Int)
    (st : SplitState F) (data : List Byte) (atEOF : Bool)
    (h : ¬ (typecheck st data).recordmatch <:+: data) :
    (atEOF = true → data ≠ [] →
      splitFunc ops interval st data atEOF
        = some (typecheck st data, (data.length : Int), some data)) ∧
    (atEOF = false ∨ data = [] →
      splitFunc ops interval st data atEOF = some (typecheck st data, 0, none)) := by
  rw [splitFunc_no_marker ops interval st data atEOF h]
  constructor
  · intro h1 h2
    have : 0 < data.length := List.length_pos.mpr h2
    simp [h1, this]
  · intro h1
    rcases h1 with h1 | h1
    · simp [h1]
    · simp [h1]

/-- A witness for C17: a buffer without the marker `====`, at the end of the
stream and before it. -/
theorem split_without_marker_witness :
    (true = true → B "foo\tbar\n" ≠ [] →
      splitFunc decOps 0 ⟨BATCH, true, B "====", ⟨0, 0⟩⟩ (B "foo\tbar\n") true
        = some (typecheck ⟨BATCH, true, B "====", ⟨0, 0⟩⟩ (B "foo\tbar\n"),
            ((B "foo\tbar\n").length : Int), some (B "foo\tbar\n"))) ∧
    (true = false ∨ B "foo\tbar\n" = [] →
      splitFunc decOps 0 ⟨BATCH, true, B "====", ⟨0, 0⟩⟩ (B "foo\tbar\n") true
        = some (typecheck ⟨BATCH, true, B "====", ⟨0, 0⟩⟩ (B "foo\tbar\n"), 0, none)) :=
  split_without_marker decOps 0 ⟨BATCH, true, B "====", ⟨0, 0⟩⟩ (B "foo\tbar\n") true
    (by decide)

/-- C18: with interval filtering disabled, for every state, buffer and value of
`atEOF`, the split callback returns, with an advance between 0 and `len(data)`;
the advance is the offset of the marker when no line feed follows the marker;
and a token returned is a non-empty beginning of the buffer that does not hold
the marker and is no longer than the advance. -/
theorem split_respects_scanner_contract {F : Type} (ops : Float64Ops F) (interval : Int)
    (st : SplitState F) (data : List Byte) (atEOF : Bool)
    (hchk : check_intervals interval = false) :
    ∃ st' advance token, splitFunc ops interval st data atEOF = some (st', advance, token) ∧
      0 ≤ advance ∧ advance ≤ (data.length : Int) ∧
      (∀ e : Nat, FirstAt (typecheck st data).recordmatch data e → NL ∉ data.drop e →
        advance = e) ∧
      (∀ t, token = some t →
        t ≠ [] ∧ t <+: data ∧ ¬ (typecheck st data).recordmatch <:+: t ∧
          0 < t.length ∧ (t.length : Int) ≤ advance) := by
  rcases splitFunc_nofilter ops interval st data atEOF hchk with
    ⟨hno, hs⟩ | ⟨hf, hs⟩ | ⟨e, hpos, hf, hs⟩
  · have habs : ∀ e : Nat, ¬ FirstAt (typecheck st data).recordmatch data e := by
      intro e he
      have := Index_of_firstAt he
      rw [Index_of_absent hno] at this
      omega
    by_cases hc : (atEOF && decide (data.length > 0)) = true
    · rw [if_pos hc] at hs
      have hpos : 0 < data.length := by
        simp only [Bool.and_eq_true, decide_eq_true_eq] at hc; exact hc.2
      refine ⟨_, _, _, hs, by omega, le_refl _, fun e he => absurd he (habs e), ?_⟩
      intro t ht
      simp only [Option.some.injEq] at ht
      subst ht
      exact ⟨List.length_pos.mp hpos, List.prefix_refl _, hno, hpos, le_refl _⟩
    · rw [if_neg hc] at hs
      refine ⟨_, _, _, hs, le_refl _, by omega, fun e he => absurd he (habs e), ?_⟩
      intro t ht; simp at ht
  · have h1 := IndexByte_ge data NL
    have h2 := IndexByte_le NL data
    refine ⟨_, _, _, hs, by omega, by omega, ?_, ?_⟩
    · intro e he hnl
      have := firstAt_unique hf he
      subst this
      rw [IndexByte_of_not_mem (by simpa using hnl)]
      simp
    · intro t ht; simp at ht
  · have h1 := IndexByte_ge (data.drop e) NL
    have h2 := IndexByte_le NL (data.drop e)
    have hle : e ≤ data.length := hf.2.1
    have hlen : ((data.drop e).length : Int) = (data.length : Int) - e := by
      rw [List.length_drop]; omega
    refine ⟨_, _, _, hs, by omega, by omega, ?_, ?_⟩
    · intro e' he' hnl
      have := firstAt_unique hf he'
      subst this
      rw [IndexByte_of_not_mem hnl]
      omega
    · intro t ht
      simp only [Option.some.injEq] at ht
      subst ht
      have htl : (data.take e).length = e := by rw [List.length_take]; omega
      refine ⟨?_, List.take_prefix _ _, no_marker_before_first hf hpos, by omega, by omega⟩
      intro h0
      rw [h0] at htl
      simp at htl
      omega

/-- A witness for C18: in the buffer `foo\tbar\n====` the marker `====` is at
offset 8 and no line feed follows it; the callback returns the token
`foo\tbar\n` and the advance 8, the offset of the marker. -/
theorem split_respects_scanner_contract_witness :
    splitFunc decOps 0 ⟨BATCH, true, B "====", ⟨0, 0⟩⟩ (B "foo\tbar\n====") false
      = some (⟨BATCH, true, B "====", ⟨0, 0⟩⟩, 8, some (B "foo\tbar\n")) ∧
    ∃ st' advance token,
      splitFunc decOps 0 ⟨BATCH, true, B "====", ⟨0, 0⟩⟩ (B "foo\tbar\n====") false
        = some (st', advance, token) ∧
      0 ≤ advance ∧ advance ≤ ((B "foo\tbar\n====").length : Int) ∧
      (∀ e : Nat, FirstAt (typecheck (⟨BATCH, true, B "====", ⟨0, 0⟩⟩ : SplitState Dec)
          (B "foo\tbar\n====")).recordmatch (B "foo\tbar\n====") e →
        NL ∉ List.drop e (B "foo\tbar\n====") → advance = e) ∧
      (∀ t, token = some t →
        t ≠ [] ∧ t <+: B "foo\tbar\n====" ∧
          ¬ (typecheck (⟨BATCH, true, B "====", ⟨0, 0⟩⟩ : SplitState Dec)
            (B "foo\tbar\n====")).recordmatch <:+: t ∧
          0 < t.length ∧ (t.length : Int) ≤ advance) :=
  ⟨by decide, split_respects_scanner_contract decOps 0 ⟨BATCH, true, B "====", ⟨0, 0⟩⟩
    (B "foo\tbar\n====") false (by decide)⟩

set_option maxRecDepth 100000 in
/-- C19, the code at the failing inputs: on the record `x\n`, which lacks the
label, `upt_pos` is `-1 + 6 = 5`, the guard `upt_pos >= 0` holds, and the slice
`record[5:]` of a record of two bytes is out of range; on the record
`Uptime 5`, with no line feed after the label, `upt_pos` is 6 and `upt_nl` is
5, and the slice `record[6:5]` is out of range.  With an interval of five
seconds the BATCH stream `x\n====\n` therefore ends `parseSamples` by a panic. -/
theorem skip_interval_slices_out_of_range :
    Index (B "x\n") uptime_str + uptime_str.length = 5 ∧
    skip_interval decOps 5000000000 (⟨0, 0⟩ : Dec) (B "x\n") = none ∧
    Index (B "Uptime 5") uptime_str + uptime_str.length = 6 ∧
    IndexByte (List.drop 6 (B "Uptime 5")) NL + 6 = 5 ∧
    skip_interval decOps 5000000000 (⟨0, 0⟩ : Dec) (B "Uptime 5") = none ∧
    (parseSamples decOps (B "====") 5000000000 [B "x\n====\n"]).isNone = true := by
  refine ⟨by decide, by decide, by decide, by decide, by decide, by decide⟩

end Myqlib
